import Mathlib

/-!
# Verification of the CSV point-export converter (`src/main.py`)

A shallow embedding of the string-processing core of the converter:
token parsing of composite object references, unit extraction from
value strings, mojibake repair, whitespace canonicalization, row
extraction, stable sorting, device grouping, and CSV serialization.

Python strings are modelled as `String` / `List Char`.  Python's `re`
module is modelled by direct recursive scanners that implement the
specific regular expressions appearing in the source, including their
backtracking behaviour where it is observable.  Character classes
(`\s`, `\d`, `[A-Za-z]`) are modelled over their ASCII/Latin-1 ranges;
exotic Unicode whitespace/digit code points beyond those used by the
program's data are outside the modelled range.
-/

namespace CsvConverter

/-- Python whitespace (`str.strip`, `re` `\s`), restricted to the
ASCII/Latin-1 code points: space, tab, newline, carriage return,
vertical tab, form feed, the information-separator block, next-line,
and no-break space. -/
def pythonIsSpace (c : Char) : Bool :=
  c = ' ' || c = '\t' || c = '\n' || c = '\r' || c = '\x0b' || c = '\x0c' ||
  c = '\x1c' || c = '\x1d' || c = '\x1e' || c = '\x1f' || c = '\x85' || c = '\u00A0'

/-- `str.strip()` on a character list: drop whitespace from both ends. -/
def pyStripL (cs : List Char) : List Char :=
  ((cs.dropWhile pythonIsSpace).reverse.dropWhile pythonIsSpace).reverse

/-- `str.strip('"')` on a character list: drop double quotes from both ends. -/
def stripQuotesL (cs : List Char) : List Char :=
  ((cs.dropWhile (· = '"')).reverse.dropWhile (· = '"')).reverse

/-- `str.replace("'", "")`: remove every apostrophe. -/
def removeApos (cs : List Char) : List Char :=
  cs.filter (fun c => !(c = '\''))

/-- `str.replace` of U+00A0 by a space: map every no-break space to a space. -/
def replNbsp (cs : List Char) : List Char :=
  cs.map (fun c => if c = '\u00A0' then ' ' else c)

/-- `str.replace` of U+200B by the empty string: remove every zero-width space. -/
def replZw (cs : List Char) : List Char :=
  cs.filter (fun c => !(c = '\u200B'))

/-- `str.replace` of U+00C2 U+00B0 by U+00B0: left-to-right non-overlapping replacement of
the two-character mojibake sequence U+00C2 U+00B0 by U+00B0. -/
def replA0 : List Char → List Char
  | [] => []
  | [c] => [c]
  | a :: b :: t =>
    if a = '\u00C2' && b = '\u00B0' then '\u00B0' :: replA0 t
    else a :: replA0 (b :: t)

/-- `str.replace` of U+FFFD `C` by U+00B0 `C`: replacement-char plus `C` becomes degree-`C`. -/
def replRC : List Char → List Char
  | [] => []
  | [c] => [c]
  | a :: b :: t =>
    if a = '\uFFFD' && b = 'C' then '\u00B0' :: 'C' :: replRC t
    else a :: replRC (b :: t)

/-- `str.replace` of U+FFFD `F` by U+00B0 `F`: replacement-char plus `F` becomes degree-`F`. -/
def replRF : List Char → List Char
  | [] => []
  | [c] => [c]
  | a :: b :: t =>
    if a = '\uFFFD' && b = 'F' then '\u00B0' :: 'F' :: replRF t
    else a :: replRF (b :: t)

/-- `str.replace` of U+00C2 by the empty string: remove every stray U+00C2. -/
def replA (cs : List Char) : List Char :=
  cs.filter (fun c => !(c = '\u00C2'))

/-- `_normalize_mojibake` on a character list: the six replacement passes
of the source, in source order. -/
def normalizeMojibakeL (cs : List Char) : List Char :=
  replA (replRF (replRC (replA0 (replZw (replNbsp cs)))))

/-- `re.sub(r"\s+", " ", s)`: collapse every whitespace run to one space. -/
def collapseWs : List Char → List Char
  | [] => []
  | [c] => if pythonIsSpace c then [' '] else [c]
  | c :: d :: t =>
    if pythonIsSpace c && pythonIsSpace d then collapseWs (d :: t)
    else (if pythonIsSpace c then ' ' else c) :: collapseWs (d :: t)

/-- `_clean_ws` on a character list: normalize mojibake, collapse
whitespace runs to single spaces, trim the ends. -/
def cleanWsL (cs : List Char) : List Char :=
  pyStripL (collapseWs (normalizeMojibakeL cs))

/-- `_normalize_mojibake` (src/main.py lines 23-37). -/
def _normalize_mojibake (s : String) : String :=
  ⟨normalizeMojibakeL s.data⟩

/-- `_clean_ws` (src/main.py lines 39-46). -/
def _clean_ws (s : String) : String :=
  ⟨cleanWsL s.data⟩

/-- `_sanitize_cell` (src/main.py lines 48-51). -/
def _sanitize_cell (s : String) (empty_placeholder : String) : String :=
  let cleaned := _clean_ws s
  if cleaned = "" then empty_placeholder else cleaned

/-- The character list after the last dot of `cs` (the whole list when no
dot is present): `s.split(".")[-1]`. -/
def afterLastDot (cs : List Char) : List Char :=
  (cs.reverse.takeWhile (fun c => !(c = '.'))).reverse

/-- `last_token_after_dot` (src/main.py lines 10-12). -/
def last_token_after_dot (s : String) : String :=
  ⟨pyStripL (afterLastDot s.data)⟩

/-- Whether a character list matches `^[A-Za-z]+\d+$`: a nonempty ASCII
letter prefix followed by a nonempty ASCII digit suffix.  Since letters
and digits are disjoint, the regex's greedy split is the maximal letter
prefix. -/
def matchesTypeNum (t : List Char) : Bool :=
  let ls := t.takeWhile Char.isAlpha
  let rest := t.drop ls.length
  !ls.isEmpty && !rest.isEmpty && rest.all Char.isDigit

/-- `split_type_number` (src/main.py lines 14-21): on match of
`^[A-Za-z]+\d+$` against the stripped token, return the uppercased
letters and the digit string; otherwise the stripped token and `""`. -/
def split_type_number (obj_ref : String) : String × String :=
  let t := pyStripL obj_ref.data
  if matchesTypeNum t then
    (⟨(t.takeWhile Char.isAlpha).map Char.toUpper⟩,
     ⟨t.drop (t.takeWhile Char.isAlpha).length⟩)
  else (⟨t⟩, "")

/-- A path separator accepted by `extract_dev_number_from_ref`. -/
def isSep (c : Char) : Bool := c = '/' || c = '\\'

/-- The scan of `re.search(r"[\\/](\d+)\.", ref)`: at each position, a
separator followed by a nonempty maximal digit run followed by a literal
dot is a match; the leftmost match's digit run is returned, else `[]`.
`\d+` cannot usefully backtrack because a shorter digit run is followed
by a digit, never by the required dot. -/
def devAux : List Char → List Char
  | [] => []
  | c :: rest =>
    if isSep c then
      (let ds := rest.takeWhile Char.isDigit
       if !ds.isEmpty && decide ((rest.drop ds.length).head? = some '.') then ds
       else devAux rest)
    else devAux rest

/-- `extract_dev_number_from_ref` (src/main.py lines 53-61). -/
def extract_dev_number_from_ref (ref : String) : String :=
  ⟨devAux ref.data⟩

/-- Does `$` match with exactly the suffix `t` remaining?  Python `$`
matches at the end of the string or just before a newline at the end. -/
def dollarAt (t : List Char) : Bool :=
  match t with
  | [] => true
  | [c] => c = '\n'
  | _ => false

/-- Does `\s*$` match the suffix `t`?  The star may consume any prefix
of whitespace; success anywhere suffices since nothing follows. -/
def wsStarDollar : List Char → Bool
  | [] => true
  | c :: rest => dollarAt (c :: rest) || (pythonIsSpace c && wsStarDollar rest)

/-- The lazy group `(.+?)\s*$` matched against `t`: the shortest nonempty
prefix of non-newline characters whose remainder is accepted by `\s*$`.
Returns the captured characters. -/
def lazyCapture : List Char → Option (List Char)
  | [] => none
  | c :: rest =>
    if c = '\n' then none
    else if wsStarDollar rest then some [c]
    else match lazyCapture rest with
      | some cap => some (c :: cap)
      | none => none

/-- Backtracking for `\s+(.+?)\s*$` after at least one whitespace
character was consumed: the greedy `\s+` first extends over further
whitespace and falls back to starting the capture at the current
character. -/
def capAfterWs : List Char → Option (List Char)
  | [] => none
  | c :: rest =>
    if pythonIsSpace c then
      match capAfterWs rest with
      | some cap => some cap
      | none => lazyCapture (c :: rest)
    else lazyCapture (c :: rest)

/-- `\s+(.+?)\s*$` matched against `t`: at least one leading whitespace
character, then the lazy capture. -/
def wsPlusCap : List Char → Option (List Char)
  | [] => none
  | c :: rest => if pythonIsSpace c then capAfterWs rest else none

/-- The optional fraction `(?:\.\d+)?` after the integer digits: consumed
when a dot with at least one following digit is present, else skipped.
Skipping a consumable fraction can never save the match, because the
next character would then be the dot, which no later pattern part
accepts. -/
def fracConsume (t : List Char) : List Char :=
  match t with
  | [] => []
  | c :: rest =>
    if c = '.' then
      (let ds := rest.takeWhile Char.isDigit
       if ds.isEmpty then c :: rest else rest.drop ds.length)
    else c :: rest

/-- The optional exponent `(?:[eE][-+]?\d+)?`: consumed when an `e`/`E`
with optional sign and at least one digit is present, else skipped. -/
def expConsume (t : List Char) : List Char :=
  match t with
  | [] => []
  | c :: rest =>
    if c = 'e' || c = 'E' then
      (let body := match rest with
        | [] => ([] : List Char)
        | d :: r2 => if d = '+' || d = '-' then r2 else rest
       let ds := body.takeWhile Char.isDigit
       if ds.isEmpty then c :: rest else body.drop ds.length)
    else c :: rest

/-- `re.match(r"^[\s]*[-+]?\d+(?:\.\d+)?(?:[eE][-+]?\d+)?\s+(.+?)\s*$", s)`:
returns the capture group, or `none` when the match fails. -/
def unitsMatch (cs : List Char) : Option (List Char) :=
  let t0 := cs.dropWhile pythonIsSpace
  let t1 := match t0 with
    | [] => ([] : List Char)
    | c :: rest => if c = '-' || c = '+' then rest else t0
  let ds := t1.takeWhile Char.isDigit
  if ds.isEmpty then none
  else wsPlusCap (expConsume (fracConsume (t1.drop ds.length)))

/-- `extract_units` (src/main.py lines 63-75): strip whitespace, strip
surrounding double quotes, remove all apostrophes, normalize mojibake,
match the units pattern, and normalize mojibake again on the capture. -/
def extract_units (value_field : String) : String :=
  let s := normalizeMojibakeL (removeApos (stripQuotesL (pyStripL value_field.data)))
  match unitsMatch s with
  | some cap => ⟨normalizeMojibakeL cap⟩
  | none => ""

/-- Digits-with-underscores tail of a Python integer literal: after the
first digit, every underscore must be followed by a digit. -/
def duRest : List Char → Bool
  | [] => true
  | c :: rest =>
    if c = '_' then
      match rest with
      | [] => false
      | d :: r2 => d.isDigit && duRest r2
    else c.isDigit && duRest rest

/-- Numeric value of a digit run, ignoring underscores. -/
def digitsVal (cs : List Char) : Nat :=
  cs.foldl (fun acc c => if c = '_' then acc else acc * 10 + (c.toNat - '0'.toNat)) 0

/-- `int(s)` for a Python `str` argument, over the ASCII range: optional
surrounding whitespace, optional sign, then digits with single interior
underscores.  Returns `none` where Python raises `ValueError`. -/
def pyInt (s : String) : Option Int :=
  let cs := pyStripL s.data
  match cs with
  | [] => none
  | c :: rest =>
    let (neg, body) :=
      if c = '-' then (true, rest) else if c = '+' then (false, rest) else (false, cs)
    match body with
    | [] => none
    | d :: t =>
      if d.isDigit && duRest t then
        (let v : Int := (digitsVal (d :: t) : Nat)
         some (if neg then -v else v))
      else none

/-- A normalized row, in the field order of the Python tuple
`(obj_type, obj_num, name, units, dev_number, dev_name)`. -/
structure Row where
  obj_type : String
  obj_num : String
  name : String
  units : String
  dev_number : String
  dev_name : String
deriving DecidableEq, Repr

/-- Extraction of one `Row` from a raw record with at least six cells
(the loop body of `read_rows`, src/main.py lines 95-108). -/
def extractRow (cells : List String) : Row :=
  let obj_ref_full := _clean_ws (cells.getD 0 "")
  let nm := _clean_ws (cells.getD 4 "")
  let value_field : String := ⟨pyStripL (cells.getD 5 "").data⟩
  let obj_ref := last_token_after_dot obj_ref_full
  let tn := split_type_number obj_ref
  { obj_type := tn.1
    obj_num := tn.2
    name := nm
    units := extract_units value_field
    dev_number := extract_dev_number_from_ref obj_ref_full
    dev_name := "" }

/-- `read_rows` (src/main.py lines 77-109), modelled on the record list
produced by `csv.reader`: the first record (header) is skipped
unconditionally, records with fewer than six cells are skipped, every
other record yields one row. -/
def read_rows (records : List (List String)) : List Row :=
  match records with
  | [] => []
  | _header :: recs =>
    (recs.filter (fun r => decide (6 ≤ r.length))).map extractRow

/-- The numeric part of the sort key: `int(n) if n else 0` with
`ValueError` mapped to `0`. -/
def sKeyNum (n : String) : Int :=
  if n = "" then 0 else (pyInt n).getD 0

/-- The sort key of `sort_rows`: `(t.upper(), ni)`. -/
def s_key (r : Row) : String × Int :=
  (⟨r.obj_type.data.map Char.toUpper⟩, sKeyNum r.obj_num)

/-- Strict lexicographic comparison of character lists by code point,
as Python compares strings. -/
def strLtB : List Char → List Char → Bool
  | [], [] => false
  | [], _ :: _ => true
  | _ :: _, [] => false
  | a :: as, b :: bs =>
    if a.toNat < b.toNat then true
    else if b.toNat < a.toNat then false
    else strLtB as bs

/-- Lexicographic comparison of sort keys, as Python compares the key
tuples. -/
def keyLe (a b : String × Int) : Bool :=
  if a.1 = b.1 then decide (a.2 ≤ b.2) else strLtB a.1.data b.1.data

/-- Stable insertion of `x` after every element whose key is `≤` its
key. -/
def insertRow (x : Row) : List Row → List Row
  | [] => [x]
  | y :: ys => if keyLe (s_key y) (s_key x) then y :: insertRow x ys else x :: y :: ys

/-- `sort_rows` (src/main.py lines 111-121): Python's `list.sort` is a
stable sort by `s_key`; a stable sort by a total preorder has a unique
result, here realized as stable insertion sort. -/
def sort_rows (rows : List Row) : List Row :=
  rows.foldl (fun acc x => insertRow x acc) []

/-- The fixed header record of the Writer. -/
def headerRow : List String :=
  ["Object_Type", "Object_Number", "Name", "Units", "Building", "DEV_Number", "DEV_Name"]

/-- The seven source cells serialized for one row: the four extracted
fields, the caller-supplied building, the device number, and the
caller-supplied device name. -/
def sourceCells (r : Row) (building dev_name_override : String) : List String :=
  [r.obj_type, r.obj_num, r.name, r.units, building, r.dev_number, dev_name_override]

/-- `write_csv` (src/main.py lines 123-149), modelled as the record list
handed to `csv.writer`: optional header, then one record per row with
every cell passed through `_sanitize_cell`. -/
def write_csv (rows : List Row) (building dev_name_override : String)
    (write_header : Bool) (empty_placeholder : String) : List (List String) :=
  (if write_header then [headerRow] else []) ++
    rows.map (fun r => (sourceCells r building dev_name_override).map
      (fun s => _sanitize_cell s empty_placeholder))

/-- The grouping key of `process_all_raw` (src/main.py lines 170-175):
the row's device number, or the source file's stem when it is empty. -/
def groupKey (stem : String) (r : Row) : String :=
  if r.dev_number = "" then stem else r.dev_number

/-- Append `r` to the group of key `k`, creating the group at the end
when absent (`dict.setdefault` followed by `append`, with Python dicts
preserving insertion order). -/
def addToGroups (gs : List (String × List Row)) (k : String) (r : Row) :
    List (String × List Row) :=
  match gs with
  | [] => [(k, [r])]
  | (k', rs) :: rest =>
    if k' = k then (k', rs ++ [r]) :: rest else (k', rs) :: addToGroups rest k r

/-- The grouping loop of `process_all_raw` (src/main.py lines 171-175). -/
def groupRows (stem : String) (rows : List Row) : List (String × List Row) :=
  rows.foldl (fun gs r => addToGroups gs (groupKey stem r) r) []

/-- Lookup of a group by key. -/
def lookupGroup (k : String) (gs : List (String × List Row)) : Option (List Row) :=
  match gs with
  | [] => none
  | (k', rs) :: rest => if k' = k then some rs else lookupGroup k rest

/-- The output file name for a group key (src/main.py line 179:
`processed_dir / f"{key}.csv"`). -/
def outputFileName (key : String) : String := key ++ ".csv"

/-! ## CSV wire format

`csv.writer` / `csv.reader` with the default dialect (delimiter `,`,
quote char `"`, `QUOTE_MINIMAL`, doublequote) and line terminator
`"\n"`, as used by `write_csv`.  The reader model parses records
line-by-line and is faithful for files whose cells contain no embedded
newline — which holds for everything this Writer emits, since every
cell passes `_clean_ws`, whose output contains no newline. -/

/-- Does `QUOTE_MINIMAL` quote this field?  Yes when it contains the
delimiter, the quote character, or a line-break character. -/
def needsQuote (f : List Char) : Bool :=
  f.any (fun c => c = ',' || c = '"' || c = '\n' || c = '\r')

/-- Double every quote character (the `doublequote` escape). -/
def escQ : List Char → List Char
  | [] => []
  | c :: t => if c = '"' then '"' :: '"' :: escQ t else c :: escQ t

/-- Serialize one field, quoting it when required. -/
def encField (f : List Char) : List Char :=
  if needsQuote f then '"' :: (escQ f ++ ['"']) else f

/-- Join fields with the `,` delimiter. -/
def joinComma : List (List Char) → List Char
  | [] => []
  | [f] => f
  | f :: rest => f ++ ',' :: joinComma rest

/-- Serialize one record. -/
def encRecord (fields : List String) : List Char :=
  joinComma (fields.map (fun f => encField f.data))

/-- Serialize a record list to file content: each record is followed by
the `"\n"` line terminator; the file opens with the U+FEFF byte-order
mark written by the `utf-8-sig` encoding. -/
def encFile (records : List (List String)) : List Char :=
  '\uFEFF' :: (records.map encRecord).foldr (fun line acc => line ++ '\n' :: acc) []

/-- Parse an unquoted field: up to the next delimiter.  Returns the
field and the remaining input after the delimiter (`none` at end of
record). -/
def parseUnq (acc : List Char) : List Char → List Char × Option (List Char)
  | [] => (acc.reverse, none)
  | c :: rest => if c = ',' then (acc.reverse, some rest) else parseUnq (c :: acc) rest

/-- Parse the interior of a quoted field: a doubled quote is a literal
quote, a closing quote is followed by a delimiter or the end of the
record. -/
def parseQ (acc : List Char) : List Char → List Char × Option (List Char)
  | [] => (acc.reverse, none)
  | c :: rest =>
    if c = '"' then
      match rest with
      | [] => (acc.reverse, none)
      | d :: r2 =>
        if d = '"' then parseQ (d :: acc) r2
        else if d = ',' then (acc.reverse, some r2)
        else parseUnq (d :: acc) r2
    else parseQ (c :: acc) rest

/-- Parse the fields of one record; `fuel` bounds the number of fields
(one more than the record length always suffices, since every field
after the first consumes its preceding delimiter). -/
def parseRecAux : Nat → List Char → List (List Char)
  | 0, _ => []
  | fuel + 1, cs =>
    let st := match cs with
      | c :: t => if c = '"' then parseQ [] t else parseUnq [] (c :: t)
      | [] => (([] : List Char), (none : Option (List Char)))
    match st.2 with
    | none => [st.1]
    | some rest => st.1 :: parseRecAux fuel rest

/-- Parse one record line; a blank line yields no fields. -/
def parseRecordL (cs : List Char) : List (List Char) :=
  if cs.isEmpty then [] else parseRecAux (cs.length + 1) cs

/-- Split file content into lines at `'\n'`; a trailing newline does not
produce a final empty line. -/
def splitLinesAux (acc : List Char) : List Char → List (List Char)
  | [] => if acc.isEmpty then [] else [acc.reverse]
  | c :: rest =>
    if c = '\n' then acc.reverse :: splitLinesAux [] rest
    else splitLinesAux (c :: acc) rest

/-- Parse file content into records, dropping a leading byte-order
mark. -/
def parseFile (cs : List Char) : List (List String) :=
  let body := match cs with
    | c :: rest => if c = '\uFEFF' then rest else c :: rest
    | [] => []
  (splitLinesAux [] body).map (fun line => (parseRecordL line).map (fun f => (⟨f⟩ : String)))

/-! ## Claim-side specification functions

These two definitions follow the wording of the specification (not the
source) and are compared with the source-derived definitions above. -/

/-- The maximal digit run starting at position `i`. -/
def digitRunAt (cs : List Char) (i : Nat) : List Char :=
  (cs.drop i).takeWhile Char.isDigit

/-- Spec wording for device-number extraction: position `i` holds a path
separator immediately followed by a (nonempty, maximal) digit run that
is immediately followed by a dot. -/
def devHitAt (cs : List Char) (i : Nat) : Bool :=
  match cs.drop i with
  | [] => false
  | c :: rest =>
    isSep c && !(rest.takeWhile Char.isDigit).isEmpty &&
      decide ((rest.drop (rest.takeWhile Char.isDigit).length).head? = some '.')

/-- Spec wording: the digit run of the first (leftmost) such position,
or `[]` when there is none. -/
def specDevNumber (cs : List Char) : List Char :=
  match (List.range cs.length).find? (devHitAt cs) with
  | some i => digitRunAt cs (i + 1)
  | none => []

/-- Consume the claim's numeric token — optional sign, digits, optional
decimal fraction, optional exponent — returning the remainder, or
`none` when the input does not start with such a token. -/
def numericConsume (cs : List Char) : Option (List Char) :=
  match cs with
  | [] => none
  | c :: rest =>
    let t1 := if c = '-' || c = '+' then rest else c :: rest
    let ds := t1.takeWhile Char.isDigit
    if ds.isEmpty then none
    else some (expConsume (fracConsume (t1.drop ds.length)))

/-- Claim wording for C2: the value string has the form
`<number><space><unit text>` — a numeric token, a space, and a unit
text that is nonempty after trimming. -/
def hasUnitForm (v : String) : Bool :=
  match numericConsume v.data with
  | some (c :: u) => c = ' ' && !(pyStripL u).isEmpty
  | _ => false


/-- Drop trailing Python whitespace (the right half of `str.strip()`). -/
def rstripL (cs : List Char) : List Char :=
  (cs.reverse.dropWhile pythonIsSpace).reverse

/-- A concrete row used to instantiate theorems with hypotheses. -/
def sampleRow (t n dev : String) : Row :=
  { obj_type := t, obj_num := n, name := "Nm", units := "u", dev_number := dev, dev_name := "" }

/-- Row-level sort order. -/
def rowLe (a b : Row) : Prop := keyLe (s_key a) (s_key b) = true

/-- No two adjacent characters of the list are `a` followed by `b`. -/
def noPair (a b : Char) : List Char → Bool
  | [] => true
  | [_] => true
  | c :: d :: t => !(c = a && d = b) && noPair a b (d :: t)

/-- The concrete row used by the C9 witness. -/
def row9 : Row :=
  { obj_type := "AV", obj_num := "28", name := "Zone Temp", units := "°C",
    dev_number := "10409", dev_name := "" }

/-! ## Generic list and character lemmas -/

theorem takeWhile_append_all {p : Char → Bool} {a : List Char} (b : List Char)
    (h : ∀ c ∈ a, p c = true) :
    (a ++ b).takeWhile p = a ++ b.takeWhile p := by
  induction a with
  | nil => rfl
  | cons x xs ih =>
    have hx : p x = true := h x (List.mem_cons_self x xs)
    simp [List.takeWhile_cons, hx, ih (fun c hc => h c (List.mem_cons_of_mem x hc))]

theorem takeWhile_eq_self_of_all {p : Char → Bool} {a : List Char}
    (h : ∀ c ∈ a, p c = true) : a.takeWhile p = a := by
  have := takeWhile_append_all (p := p) (a := a) [] h
  simpa using this

theorem takeWhile_cons_neg {p : Char → Bool} {c : Char} (t : List Char)
    (h : p c = false) : (c :: t).takeWhile p = [] := by
  simp [List.takeWhile_cons, h]

theorem dropWhile_cons_neg {p : Char → Bool} {c : Char} (t : List Char)
    (h : p c = false) : (c :: t).dropWhile p = c :: t := by
  simp [List.dropWhile_cons, h]

theorem dropWhile_eq_self_of_all_neg {p : Char → Bool} {l : List Char}
    (h : ∀ c ∈ l, p c = false) : l.dropWhile p = l := by
  cases l with
  | nil => rfl
  | cons x xs => exact dropWhile_cons_neg xs (h x (List.mem_cons_self x xs))

theorem dropWhile_append_of_neg {p : Char → Bool} {a : List Char} (b : List Char)
    {c : Char} (hc : c ∈ a) (h : p c = false) :
    (a ++ b).dropWhile p = a.dropWhile p ++ b := by
  induction a with
  | nil => cases hc
  | cons x xs ih =>
    by_cases hx : p x = true
    · rcases List.mem_cons.mp hc with rfl | hmem
      · rw [hx] at h; cases h
      · simp [List.dropWhile_cons, hx, ih hmem]
    · have hx' : p x = false := Bool.eq_false_iff.mpr hx
      simp [List.dropWhile_cons, hx']

theorem find?_map_succ (p : Nat → Bool) (l : List Nat) :
    (l.map Nat.succ).find? p = (l.find? (fun n => p n.succ)).map Nat.succ := by
  induction l with
  | nil => rfl
  | cons x xs ih =>
    by_cases hx : p x.succ = true
    · simp [List.find?_cons, hx]
    · have hx' : p x.succ = false := Bool.eq_false_iff.mpr hx
      simp [List.find?_cons, hx', ih]

theorem ne_of_isDigit {c d : Char} (h : c.isDigit = true) (hd : d.isDigit = false) :
    c ≠ d := by
  intro hc; subst hc; rw [h] at hd; cases hd

theorem ws_false_of_isDigit {c : Char} (h : c.isDigit = true) :
    pythonIsSpace c = false := by
  cases hws : pythonIsSpace c
  · rfl
  · exfalso
    simp only [pythonIsSpace, Bool.or_eq_true, decide_eq_true_eq] at hws
    rcases hws with ((((((((((h1 | h1) | h1) | h1) | h1) | h1) | h1) | h1) | h1) | h1) | h1) | h1 <;>
      (subst h1; exact absurd h (by decide))

theorem digit_false_of_ws {c : Char} (h : pythonIsSpace c = true) :
    c.isDigit = false := by
  cases hd : c.isDigit
  · rfl
  · rw [ws_false_of_isDigit hd] at h; cases h

/-! ## C6: fallback of the type/number split -/

/-- C6 (amended): for every token whose *stripped* form does not match
`^[A-Za-z]+\d+$`, the type/number split does not fail or drop data: it
returns the trimmed original token as `object_type` and the empty
string as `object_number`. -/
theorem claim_C6_split_fallback (s : String)
    (h : matchesTypeNum (pyStripL s.data) = false) :
    split_type_number s = (⟨pyStripL s.data⟩, "") := by
  unfold split_type_number
  simp [h]

/-- Witness for C6 at the concrete token `"AV-2"`. -/
theorem claim_C6_split_fallback_witness :
    matchesTypeNum (pyStripL ("AV-2").data) = false ∧
      split_type_number "AV-2" = (⟨pyStripL ("AV-2").data⟩, "") :=
  ⟨by decide, claim_C6_split_fallback "AV-2" (by decide)⟩

/-- Counterexample to C6 as stated: the raw token `" AV2 "` does not
match `^[A-Za-z]+\d+$` (it has surrounding spaces), yet the split does
not return the trimmed token with an empty number — the code strips
before matching and parses it as `("AV", "2")`. -/
theorem claim_C6_counterexample :
    matchesTypeNum (" AV2 ").data = false ∧
      split_type_number " AV2 " = ("AV", "2") ∧
      (("AV", "2") : String × String) ≠ (⟨pyStripL (" AV2 ").data⟩, "") := by
  decide

/-! ## C7: header skip, short-record skip, empty input -/

/-- C7: the row reader unconditionally skips the first line as a header
(its content is irrelevant), silently skips every record with fewer
than six cells, returns an empty list for an empty or header-only
file, and yields exactly one normalized row per surviving record. -/
theorem claim_C7_read_rows_skips :
    read_rows [] = [] ∧
      (∀ hdr : List String, read_rows [hdr] = []) ∧
      (∀ hdr hdr2 : List String, ∀ recs, read_rows (hdr :: recs) = read_rows (hdr2 :: recs)) ∧
      (∀ hdr : List String, ∀ recs, read_rows (hdr :: recs) =
        (recs.filter (fun r => decide (6 ≤ r.length))).map extractRow) := by
  refine ⟨rfl, fun hdr => ?_, fun hdr hdr2 recs => rfl, fun hdr recs => rfl⟩
  simp [read_rows]

/-! ## C8: every written cell is sanitized -/

/-- C8: every cell the Writer emits — including the caller-supplied
building name and device name — is passed through the
whitespace/mojibake normalizer, and a cell that is empty after
normalization is replaced by the placeholder; with the default empty
placeholder no substitution happens. -/
theorem claim_C8_write_csv_sanitizes :
    (∀ rows b d wh ph,
      write_csv rows b d wh ph =
        (if wh then [headerRow] else []) ++
          rows.map (fun r => (sourceCells r b d).map
            (fun s => if _clean_ws s = "" then ph else _clean_ws s))) ∧
      (∀ s ph, _clean_ws s ≠ "" → _sanitize_cell s ph = _clean_ws s) ∧
      (∀ s ph, _clean_ws s = "" → _sanitize_cell s ph = ph) ∧
      (∀ s, _sanitize_cell s "" = _clean_ws s) := by
  refine ⟨fun rows b d wh ph => ?_, fun s ph h => ?_, fun s ph h => ?_, fun s => ?_⟩
  · unfold write_csv _sanitize_cell
    rfl
  · simp [_sanitize_cell, h]
  · simp [_sanitize_cell, h]
  · unfold _sanitize_cell
    by_cases h : _clean_ws s = "" <;> simp [h]

/-- Witness for C8 at a concrete cell needing both normalization and
placeholder substitution. -/
theorem claim_C8_write_csv_sanitizes_witness :
    (_clean_ws "  a  b " ≠ "" ∧ _sanitize_cell "  a  b " "-" = _clean_ws "  a  b ") ∧
      (_clean_ws "   " = "" ∧ _sanitize_cell "   " "-" = "-") :=
  ⟨⟨by decide, claim_C8_write_csv_sanitizes.2.1 "  a  b " "-" (by decide)⟩,
   ⟨by decide, claim_C8_write_csv_sanitizes.2.2.1 "   " "-" (by decide)⟩⟩

/-! ## C10: shared group key between device number and file stem -/

theorem lookupGroup_addToGroups (gs : List (String × List Row)) (k k' : String) (r : Row) :
    lookupGroup k (addToGroups gs k' r) =
      if k' = k then some ((lookupGroup k gs).getD [] ++ [r]) else lookupGroup k gs := by
  induction gs with
  | nil =>
    by_cases h : k' = k <;> simp [addToGroups, lookupGroup, h]
  | cons hd tl ih =>
    obtain ⟨k0, rs⟩ := hd
    by_cases h0 : k0 = k'
    · subst h0
      by_cases h : k0 = k <;> simp [addToGroups, lookupGroup, h]
    · by_cases h : k0 = k
      · subst h
        have h' : k' ≠ k0 := fun hc => h0 hc.symm
        simp [addToGroups, lookupGroup, h0, h']
      · simp [addToGroups, lookupGroup, h0, h, ih]

theorem lookupGroup_foldl (stem : String) (rows : List Row)
    (gs : List (String × List Row)) (k : String) :
    lookupGroup k (rows.foldl (fun gs r => addToGroups gs (groupKey stem r) r) gs) =
      match lookupGroup k gs with
      | some l => some (l ++ rows.filter (fun r => groupKey stem r = k))
      | none =>
        if rows.filter (fun r => groupKey stem r = k) = [] then none
        else some (rows.filter (fun r => groupKey stem r = k)) := by
  induction rows generalizing gs with
  | nil =>
    cases h : lookupGroup k gs <;> simp [h]
  | cons r rs ih =>
    simp only [List.foldl_cons]
    rw [ih]
    rw [lookupGroup_addToGroups]
    by_cases hk : groupKey stem r = k
    · cases h : lookupGroup k gs with
      | none => simp [hk, h, List.filter_cons]
      | some l => simp [hk, h, List.filter_cons]
    · have hk' : (groupKey stem r = k) = False := eq_false hk
      cases h : lookupGroup k gs with
      | none => simp [hk, h, List.filter_cons, hk']
      | some l => simp [hk, h, List.filter_cons, hk']

theorem mem_keys_addToGroups (gs : List (String × List Row)) (k k' : String) (r : Row) :
    k ∈ (addToGroups gs k' r).map Prod.fst ↔ k ∈ gs.map Prod.fst ∨ k = k' := by
  induction gs with
  | nil => simp [addToGroups, eq_comm]
  | cons hd tl ih =>
    obtain ⟨k0, rs⟩ := hd
    by_cases h0 : k0 = k'
    · subst h0
      by_cases h : k = k0 <;> simp [addToGroups, h]
    · simp [addToGroups, h0, ih]
      tauto

theorem nodup_keys_addToGroups (gs : List (String × List Row)) (k' : String) (r : Row)
    (h : (gs.map Prod.fst).Nodup) : ((addToGroups gs k' r).map Prod.fst).Nodup := by
  induction gs with
  | nil => simp [addToGroups]
  | cons hd tl ih =>
    obtain ⟨k0, rs⟩ := hd
    simp only [List.map_cons, List.nodup_cons] at h
    by_cases h0 : k0 = k'
    · subst h0
      simp [addToGroups, h.1, h.2]
    · simp only [addToGroups, if_neg h0, List.map_cons, List.nodup_cons]
      refine ⟨?_, ih h.2⟩
      intro hc
      rcases (mem_keys_addToGroups tl k0 k' r).mp hc with hmem | heq
      · exact h.1 hmem
      · exact h0 heq

theorem nodup_keys_groupRows (stem : String) (rows : List Row) :
    ((groupRows stem rows).map Prod.fst).Nodup := by
  unfold groupRows
  suffices h : ∀ gs : List (String × List Row), (gs.map Prod.fst).Nodup →
      ((rows.foldl (fun gs r => addToGroups gs (groupKey stem r) r) gs).map Prod.fst).Nodup by
    exact h [] (by simp)
  induction rows with
  | nil => exact fun gs hgs => hgs
  | cons r rs ih =>
    intro gs hgs
    exact ih _ (nodup_keys_addToGroups gs (groupKey stem r) r hgs)

/-- C10: when a source file's stem equals some row's extracted device
number, the rows with an empty device number share the group keyed by
the stem with that device's rows: the group keyed `stem` collects, in
original order, exactly the rows whose device number is `stem` or
empty, group keys are pairwise distinct (one output file per key), and
that single output file is named `<stem>.csv`. -/
theorem claim_C10_stem_collision_merges (stem : String) (rows : List Row)
    (h : ∃ r ∈ rows, r.dev_number = stem) :
    ((groupRows stem rows).map Prod.fst).Nodup ∧
      lookupGroup stem (groupRows stem rows) =
        some (rows.filter (fun r => r.dev_number = stem ∨ r.dev_number = "")) ∧
      (∀ r : Row, groupKey stem r = stem ↔ (r.dev_number = stem ∨ r.dev_number = "")) ∧
      outputFileName stem = stem ++ ".csv" := by
  have hiff : ∀ r : Row, groupKey stem r = stem ↔ (r.dev_number = stem ∨ r.dev_number = "") := by
    intro r
    unfold groupKey
    by_cases hd : r.dev_number = ""
    · simp [hd]
    · simp [hd]
  refine ⟨nodup_keys_groupRows stem rows, ?_, hiff, rfl⟩
  have hfilter : rows.filter (fun r => groupKey stem r = stem) =
      rows.filter (fun r => r.dev_number = stem ∨ r.dev_number = "") := by
    apply List.filter_congr
    intro r _
    simp [hiff r]
  have hne : rows.filter (fun r => groupKey stem r = stem) ≠ [] := by
    obtain ⟨r, hr, hdev⟩ := h
    intro hc
    have : r ∈ rows.filter (fun r => groupKey stem r = stem) := by
      rw [List.mem_filter]
      exact ⟨hr, by simp [(hiff r).mpr (Or.inl hdev)]⟩
    rw [hc] at this
    cases this
  have := lookupGroup_foldl stem rows [] stem
  simp only [lookupGroup] at this
  rw [groupRows, this, if_neg hne, hfilter]

/-- Witness for C10 at stem `"500"` with one row carrying device number
`"500"` and one row with an empty device number. -/
theorem claim_C10_stem_collision_merges_witness :
    (∃ r ∈ [sampleRow "AV" "1" "500", sampleRow "AI" "2" ""], r.dev_number = "500") ∧
      (((groupRows "500" [sampleRow "AV" "1" "500", sampleRow "AI" "2" ""]).map Prod.fst).Nodup ∧
        lookupGroup "500" (groupRows "500" [sampleRow "AV" "1" "500", sampleRow "AI" "2" ""]) =
          some ([sampleRow "AV" "1" "500", sampleRow "AI" "2" ""].filter
            (fun r => r.dev_number = "500" ∨ r.dev_number = "")) ∧
        (∀ r : Row, groupKey "500" r = "500" ↔ (r.dev_number = "500" ∨ r.dev_number = "")) ∧
        outputFileName "500" = "500" ++ ".csv") :=
  ⟨⟨sampleRow "AV" "1" "500", by decide⟩,
   claim_C10_stem_collision_merges "500" [sampleRow "AV" "1" "500", sampleRow "AI" "2" ""]
     ⟨sampleRow "AV" "1" "500", by decide⟩⟩

/-! ## C5: the concrete extraction scenario -/

/-- C5: the raw input line
`//Morisset/10409.AV28,,,,Zone Temp,"23.1 Â°C"` is extracted to the
normalized row `("AV", "28", "Zone Temp", "°C", "10409")`, with the
mojibake in the value field repaired to the degree sign. -/
theorem claim_C5_scenario_row :
    read_rows [["header"],
        (parseRecordL ("//Morisset/10409.AV28,,,,Zone Temp,\"23.1 Â°C\"").data).map
          (fun f => (⟨f⟩ : String))] =
      [{ obj_type := "AV", obj_num := "28", name := "Zone Temp", units := "°C",
         dev_number := "10409", dev_name := "" }] := by
  decide

/-! ## C4: sorting -/

theorem strLtB_irrefl (x : List Char) : strLtB x x = false := by
  induction x with
  | nil => rfl
  | cons c cs ih => simp [strLtB, ih]

theorem strLtB_asymm {x y : List Char} (h1 : strLtB x y = true) (h2 : strLtB y x = true) :
    False := by
  induction x generalizing y with
  | nil => cases y <;> simp [strLtB] at h1 h2
  | cons c cs ih =>
    cases y with
    | nil => simp [strLtB] at h1
    | cons d ds =>
      by_cases hcd : c.toNat < d.toNat
      · have hdc : ¬ d.toNat < c.toNat := Nat.lt_asymm hcd
        simp [strLtB, hcd, hdc] at h2
      · by_cases hdc : d.toNat < c.toNat
        · simp [strLtB, hcd, hdc] at h1
        · simp [strLtB, hcd, hdc] at h1 h2
          exact ih h1 h2

theorem char_eq_of_toNat_eq {c d : Char} (h : c.toNat = d.toNat) : c = d := by
  apply Char.ext
  have hv : c.val.toNat = d.val.toNat := h
  exact UInt32.ext_iff.mpr hv

theorem strLtB_trichotomy (x y : List Char) (h : x ≠ y) :
    strLtB x y = true ∨ strLtB y x = true := by
  induction x generalizing y with
  | nil =>
    cases y with
    | nil => exact absurd rfl h
    | cons d ds => left; rfl
  | cons c cs ih =>
    cases y with
    | nil => right; rfl
    | cons d ds =>
      rcases Nat.lt_trichotomy c.toNat d.toNat with hlt | heq | hgt
      · left; simp [strLtB, hlt]
      · have hcd : c = d := char_eq_of_toNat_eq heq
        subst hcd
        have hne : cs ≠ ds := fun hc => h (by rw [hc])
        rcases ih ds hne with h1 | h1
        · left; simp [strLtB, h1]
        · right; simp [strLtB, h1]
      · right
        have : ¬ c.toNat < d.toNat := Nat.lt_asymm hgt
        simp [strLtB, hgt, this]

theorem strLtB_trans {x y z : List Char} (h1 : strLtB x y = true) (h2 : strLtB y z = true) :
    strLtB x z = true := by
  induction x generalizing y z with
  | nil =>
    cases z with
    | nil =>
      cases y with
      | nil => exact h1
      | cons d ds => simp [strLtB] at h2
    | cons e es => rfl
  | cons c cs ih =>
    cases y with
    | nil => simp [strLtB] at h1
    | cons d ds =>
      cases z with
      | nil => simp [strLtB] at h2
      | cons e es =>
        by_cases hcd : c.toNat < d.toNat
        · by_cases hde : d.toNat < e.toNat
          · simp [strLtB, Nat.lt_trans hcd hde]
          · by_cases hed : e.toNat < d.toNat
            · simp [strLtB, hde, hed] at h2
            · have hde' : d.toNat = e.toNat := Nat.le_antisymm (Nat.le_of_not_lt hed) (Nat.le_of_not_lt hde)
              simp [strLtB, hde' ▸ hcd]
        · by_cases hdc : d.toNat < c.toNat
          · simp [strLtB, hcd, hdc] at h1
          · have hcd' : c = d := char_eq_of_toNat_eq
              (Nat.le_antisymm (Nat.le_of_not_lt hdc) (Nat.le_of_not_lt hcd))
            subst hcd'
            simp only [strLtB, hcd, if_neg hdc, if_false] at h1
            by_cases hce : c.toNat < e.toNat
            · simp [strLtB, hce]
            · by_cases hec : e.toNat < c.toNat
              · simp [strLtB, hce, hec] at h2
              · simp only [strLtB, if_neg hce, if_neg hec] at h2 ⊢
                exact ih h1 h2

theorem str_data_ne {a b : String} (h : a ≠ b) : a.data ≠ b.data := by
  intro hd
  apply h
  cases a; cases b
  simp only at hd
  rw [hd]

theorem keyLe_refl (a : String × Int) : keyLe a a = true := by
  simp [keyLe]

theorem keyLe_total (a b : String × Int) : keyLe a b = true ∨ keyLe b a = true := by
  unfold keyLe
  by_cases h : a.1 = b.1
  · rw [if_pos h, if_pos h.symm]
    rcases Int.le_total a.2 b.2 with h2 | h2
    · left; simpa using h2
    · right; simpa using h2
  · have h' : b.1 ≠ a.1 := fun hc => h hc.symm
    rw [if_neg h, if_neg h']
    exact strLtB_trichotomy a.1.data b.1.data (str_data_ne h)

theorem keyLe_trans {a b c : String × Int} (h1 : keyLe a b = true) (h2 : keyLe b c = true) :
    keyLe a c = true := by
  unfold keyLe at h1 h2 ⊢
  by_cases hab : a.1 = b.1
  · by_cases hbc : b.1 = c.1
    · rw [if_pos hab] at h1
      rw [if_pos hbc] at h2
      rw [if_pos (hab.trans hbc)]
      simp only [decide_eq_true_eq] at h1 h2 ⊢
      exact le_trans h1 h2
    · have hac : a.1 ≠ c.1 := fun hc => hbc (hab ▸ hc)
      rw [if_neg hbc] at h2
      rw [if_neg hac, hab]
      exact h2
  · by_cases hbc : b.1 = c.1
    · have hac : a.1 ≠ c.1 := fun hc => hab (hc.trans hbc.symm)
      rw [if_neg hab] at h1
      rw [if_neg hac, ← hbc]
      exact h1
    · rw [if_neg hab] at h1
      rw [if_neg hbc] at h2
      by_cases hac : a.1 = c.1
      · exfalso
        rw [← hac] at h2
        exact strLtB_asymm h1 h2
      · rw [if_neg hac]
        exact strLtB_trans h1 h2

theorem mem_insertRow {z x : Row} {l : List Row} :
    z ∈ insertRow x l ↔ z = x ∨ z ∈ l := by
  induction l with
  | nil => simp [insertRow]
  | cons y ys ih =>
    by_cases h : keyLe (s_key y) (s_key x) = true
    · simp [insertRow, h, ih]
      tauto
    · have h' : keyLe (s_key y) (s_key x) = false := Bool.eq_false_iff.mpr h
      simp [insertRow, h']

theorem perm_insertRow (x : Row) (l : List Row) : (insertRow x l).Perm (x :: l) := by
  induction l with
  | nil => exact List.Perm.refl _
  | cons y ys ih =>
    by_cases h : keyLe (s_key y) (s_key x) = true
    · simp only [insertRow, h, if_true]
      exact (ih.cons y).trans (List.Perm.swap x y ys)
    · have h' : keyLe (s_key y) (s_key x) = false := Bool.eq_false_iff.mpr h
      simp [insertRow, h']

theorem pairwise_insertRow {x : Row} {l : List Row} (hl : l.Pairwise rowLe) :
    (insertRow x l).Pairwise rowLe := by
  induction l with
  | nil => simp [insertRow]
  | cons y ys ih =>
    rcases List.pairwise_cons.mp hl with ⟨hy, hys⟩
    by_cases h : keyLe (s_key y) (s_key x) = true
    · simp only [insertRow, h, if_true]
      refine List.pairwise_cons.mpr ⟨?_, ih hys⟩
      intro z hz
      rcases mem_insertRow.mp hz with rfl | hz'
      · exact h
      · exact hy z hz'
    · have hxy : keyLe (s_key x) (s_key y) = true := by
        rcases keyLe_total (s_key x) (s_key y) with h1 | h1
        · exact h1
        · exact absurd h1 h
      have h' : keyLe (s_key y) (s_key x) = false := Bool.eq_false_iff.mpr h
      simp only [insertRow, h', if_false]
      refine List.pairwise_cons.mpr ⟨?_, hl⟩
      intro z hz
      rcases List.mem_cons.mp hz with rfl | hz'
      · exact hxy
      · exact keyLe_trans hxy (hy z hz')

theorem filter_insertRow_eq {x : Row} {l : List Row} (hl : l.Pairwise rowLe) :
    (insertRow x l).filter (fun r => decide (s_key r = s_key x)) =
      l.filter (fun r => decide (s_key r = s_key x)) ++ [x] := by
  induction l with
  | nil => simp [insertRow]
  | cons y ys ih =>
    rcases List.pairwise_cons.mp hl with ⟨hy, hys⟩
    by_cases h : keyLe (s_key y) (s_key x) = true
    · have hins : insertRow x (y :: ys) = y :: insertRow x ys := by
        simp [insertRow, h]
      rw [hins, List.filter_cons, List.filter_cons, ih hys]
      by_cases hk : s_key y = s_key x <;> simp [hk]
    · have h' : keyLe (s_key y) (s_key x) = false := Bool.eq_false_iff.mpr h
      have hins : insertRow x (y :: ys) = x :: y :: ys := by
        simp [insertRow, h']
      have hyx : s_key y ≠ s_key x := by
        intro hc
        rw [hc, keyLe_refl] at h'
        cases h'
      have hzs : ∀ z ∈ ys, ¬ (s_key z = s_key x) := by
        intro z hz hc
        have hle := hy z hz
        rw [rowLe, hc] at hle
        rw [hle] at h'
        cases h'
      have hfy : (y :: ys).filter (fun r => decide (s_key r = s_key x)) = [] := by
        rw [List.filter_eq_nil_iff]
        intro z hz
        rcases List.mem_cons.mp hz with rfl | hz'
        · simp [hyx]
        · simp [hzs z hz']
      rw [hins, List.filter_cons, hfy]
      simp

theorem filter_insertRow_ne {x : Row} {l : List Row} {k : String × Int}
    (hk : s_key x ≠ k) :
    (insertRow x l).filter (fun r => decide (s_key r = k)) =
      l.filter (fun r => decide (s_key r = k)) := by
  induction l with
  | nil => simp [insertRow, hk]
  | cons y ys ih =>
    by_cases h : keyLe (s_key y) (s_key x) = true
    · simp [insertRow, h, List.filter_cons, ih]
    · have h' : keyLe (s_key y) (s_key x) = false := Bool.eq_false_iff.mpr h
      simp [insertRow, h', List.filter_cons, hk]

theorem sortFold_spec (rows : List Row) :
    ∀ acc : List Row, acc.Pairwise rowLe →
      (rows.foldl (fun acc x => insertRow x acc) acc).Pairwise rowLe ∧
        (rows.foldl (fun acc x => insertRow x acc) acc).Perm (acc ++ rows) ∧
        (∀ k : String × Int,
          (rows.foldl (fun acc x => insertRow x acc) acc).filter (fun r => decide (s_key r = k)) =
            acc.filter (fun r => decide (s_key r = k)) ++
              rows.filter (fun r => decide (s_key r = k))) := by
  induction rows with
  | nil =>
    intro acc hacc
    refine ⟨hacc, by simp, fun k => by simp⟩
  | cons r rs ih =>
    intro acc hacc
    have hacc' : (insertRow r acc).Pairwise rowLe := pairwise_insertRow hacc
    rcases ih (insertRow r acc) hacc' with ⟨hs, hp, hf⟩
    refine ⟨hs, ?_, ?_⟩
    · exact hp.trans (((perm_insertRow r acc).append_right rs).trans List.perm_middle.symm)
    · intro k
      simp only [List.foldl_cons]
      rw [hf k]
      by_cases hk : s_key r = k
      · subst hk
        rw [filter_insertRow_eq hacc]
        simp [List.filter_cons]
      · rw [filter_insertRow_ne (fun hc => hk hc)]
        simp [List.filter_cons, hk]

/-- C4: sorting orders rows ascending by `(object_type uppercased,
object_number as integer with fallback 0)`, is a permutation of the
input, never raises — a `ValueError` from `int` and an empty string
both yield key 0 — and is stable: rows with equal keys keep their
original relative order.  On the six rows with types `AV`,`AI` and
numbers `2`,`10`,`x` the sorted order is AI-x, AI-2, AI-10, AV-x,
AV-2, AV-10. -/
theorem claim_C4_sort_rows :
    (∀ rows : List Row, (sort_rows rows).Pairwise rowLe) ∧
      (∀ rows : List Row, (sort_rows rows).Perm rows) ∧
      (∀ (rows : List Row) (k : String × Int),
        (sort_rows rows).filter (fun r => decide (s_key r = k)) =
          rows.filter (fun r => decide (s_key r = k))) ∧
      (∀ n : String, pyInt n = none → sKeyNum n = 0) ∧
      sKeyNum "" = 0 ∧
      sort_rows [sampleRow "AV" "2" "", sampleRow "AV" "10" "", sampleRow "AV" "x" "",
          sampleRow "AI" "2" "", sampleRow "AI" "10" "", sampleRow "AI" "x" ""] =
        [sampleRow "AI" "x" "", sampleRow "AI" "2" "", sampleRow "AI" "10" "",
          sampleRow "AV" "x" "", sampleRow "AV" "2" "", sampleRow "AV" "10" ""] := by
  have key : ∀ rows : List Row, (sort_rows rows).Pairwise rowLe ∧
      (sort_rows rows).Perm rows ∧
      (∀ k : String × Int,
        (sort_rows rows).filter (fun r => decide (s_key r = k)) =
          rows.filter (fun r => decide (s_key r = k))) := by
    intro rows
    rcases sortFold_spec rows [] (List.Pairwise.nil) with ⟨hs, hp, hf⟩
    exact ⟨hs, by simpa using hp, fun k => by simpa using hf k⟩
  refine ⟨fun rows => (key rows).1, fun rows => (key rows).2.1, fun rows k => (key rows).2.2 k,
    ?_, by decide, by decide⟩
  intro n hn
  unfold sKeyNum
  by_cases h : n = ""
  · simp [h]
  · simp [h, hn]

/-! ## C1: reference parsing -/

theorem alpha_false_of_isDigit {c : Char} (h : c.isDigit = true) : c.isAlpha = false := by
  simp only [Char.isDigit, Bool.and_eq_true, decide_eq_true_eq, UInt32.le_def, BitVec.le_def] at h
  simp only [Char.isAlpha, Char.isUpper, Char.isLower, Bool.or_eq_false_iff, Bool.and_eq_false_iff,
    decide_eq_false_iff_not, UInt32.le_def, BitVec.le_def, not_le, BitVec.lt_def]
  simp only [show ((48:UInt32).toBitVec).toNat = 48 from rfl,
    show ((57:UInt32).toBitVec).toNat = 57 from rfl,
    show ((65:UInt32).toBitVec).toNat = 65 from rfl,
    show ((90:UInt32).toBitVec).toNat = 90 from rfl,
    show ((97:UInt32).toBitVec).toNat = 97 from rfl,
    show ((122:UInt32).toBitVec).toNat = 122 from rfl] at h ⊢
  omega

theorem ne_of_isAlpha {c d : Char} (h : c.isAlpha = true) (hd : d.isAlpha = false) :
    c ≠ d := by
  intro hc; subst hc; rw [h] at hd; cases hd

theorem ws_false_of_isAlpha {c : Char} (h : c.isAlpha = true) :
    pythonIsSpace c = false := by
  cases hws : pythonIsSpace c
  · rfl
  · exfalso
    simp only [pythonIsSpace, Bool.or_eq_true, decide_eq_true_eq] at hws
    rcases hws with ((((((((((h1 | h1) | h1) | h1) | h1) | h1) | h1) | h1) | h1) | h1) | h1) | h1 <;>
      (subst h1; exact absurd h (by decide))

theorem pyStripL_eq_self_of_no_ws {l : List Char} (h : ∀ c ∈ l, pythonIsSpace c = false) :
    pyStripL l = l := by
  unfold pyStripL
  rw [dropWhile_eq_self_of_all_neg h]
  rw [dropWhile_eq_self_of_all_neg (fun c hc => h c (List.mem_reverse.mp hc))]
  exact List.reverse_reverse l

theorem devHitAt_cons_succ (c : Char) (rest : List Char) (i : Nat) :
    devHitAt (c :: rest) (i + 1) = devHitAt rest i := by
  unfold devHitAt
  rw [List.drop_succ_cons]

theorem devAux_cons (c : Char) (rest : List Char) :
    devAux (c :: rest) =
      if isSep c = true then
        (let ds := rest.takeWhile Char.isDigit
         if (!ds.isEmpty && decide ((rest.drop ds.length).head? = some '.')) = true then ds
         else devAux rest)
      else devAux rest := rfl

theorem devHitAt_zero_cons (c : Char) (rest : List Char) :
    devHitAt (c :: rest) 0 =
      (isSep c && !(rest.takeWhile Char.isDigit).isEmpty &&
        decide ((rest.drop (rest.takeWhile Char.isDigit).length).head? = some '.')) := rfl

theorem devAux_eq_spec (cs : List Char) : devAux cs = specDevNumber cs := by
  induction cs with
  | nil => rfl
  | cons c rest ih =>
    unfold specDevNumber
    rw [show (c :: rest).length = rest.length + 1 from rfl, List.range_succ_eq_map]
    by_cases h0 : devHitAt (c :: rest) 0 = true
    · rw [List.find?_cons_of_pos _ h0]
      rw [devHitAt_zero_cons, Bool.and_eq_true, Bool.and_eq_true] at h0
      rw [devAux_cons, if_pos h0.1.1]
      have hcond : (!(rest.takeWhile Char.isDigit).isEmpty &&
          decide ((rest.drop (rest.takeWhile Char.isDigit).length).head? = some '.')) = true := by
        rw [h0.1.2, h0.2]
        rfl
      simp only [hcond, if_pos rfl]
      simp [digitRunAt]
    · have h0' : devHitAt (c :: rest) 0 = false := Bool.eq_false_iff.mpr h0
      rw [List.find?_cons_of_neg _ (by rw [h0']; exact Bool.false_ne_true)]
      have hdev : devAux (c :: rest) = devAux rest := by
        rw [devHitAt_zero_cons, Bool.and_assoc] at h0'
        rw [devAux_cons]
        rcases Bool.and_eq_false_iff.mp h0' with hsep | hin
        · rw [if_neg (by rw [hsep]; exact Bool.false_ne_true)]
        · by_cases hsep : isSep c = true
          · rw [if_pos hsep]
            simp only [hin]
            rfl
          · rw [if_neg hsep]
      rw [hdev, ih]
      rw [find?_map_succ]
      have hfun : (fun n : Nat => devHitAt (c :: rest) n.succ) = devHitAt rest := by
        funext i
        exact devHitAt_cons_succ c rest i
      rw [hfun]
      unfold specDevNumber
      cases hfind : (List.range rest.length).find? (devHitAt rest) with
      | none => simp [hfind]
      | some j =>
        show digitRunAt rest (j + 1) = digitRunAt (c :: rest) (j.succ + 1)
        unfold digitRunAt
        rw [show j.succ + 1 = (j + 1) + 1 from rfl]
        rw [List.drop_succ_cons]

theorem afterLastDot_append (p w : List Char) (hw : ∀ c ∈ w, (!(c = '.')) = true) :
    afterLastDot (p ++ '.' :: w) = w := by
  unfold afterLastDot
  rw [List.reverse_append, List.reverse_cons, List.append_assoc, List.singleton_append]
  rw [takeWhile_append_all _ (fun c hc => hw c (List.mem_reverse.mp hc))]
  rw [takeWhile_cons_neg _ (by simp)]
  simp

theorem devHitAt_of_drop {cs : List Char} {i : Nat} {c : Char} {rest : List Char}
    (h : cs.drop i = c :: rest) :
    devHitAt cs i = (isSep c && !(rest.takeWhile Char.isDigit).isEmpty &&
      decide ((rest.drop (rest.takeWhile Char.isDigit).length).head? = some '.')) := by
  unfold devHitAt
  rw [h]

/-- C1: for a reference of the shape `<path>/<digits>.<letters><digits2>`,
last-segment extraction followed by type/number split yields the
uppercased letters and `<digits2>`, and device-number extraction equals
the spec-side function returning the first digit run that is
immediately preceded by `/` or `\\` and immediately followed by a dot —
and such a run exists. -/
theorem claim_C1_reference_pipeline (p d L d2 : List Char)
    (hd : d ≠ [] ∧ ∀ c ∈ d, c.isDigit = true)
    (hL : L ≠ [] ∧ ∀ c ∈ L, c.isAlpha = true)
    (hd2 : d2 ≠ [] ∧ ∀ c ∈ d2, c.isDigit = true) :
    split_type_number (last_token_after_dot ⟨p ++ ['/'] ++ d ++ ['.'] ++ L ++ d2⟩) =
        (⟨L.map Char.toUpper⟩, ⟨d2⟩) ∧
      extract_dev_number_from_ref ⟨p ++ ['/'] ++ d ++ ['.'] ++ L ++ d2⟩ =
        ⟨specDevNumber (p ++ ['/'] ++ d ++ ['.'] ++ L ++ d2)⟩ ∧
      specDevNumber (p ++ ['/'] ++ d ++ ['.'] ++ L ++ d2) ≠ [] := by
  have hw_class : ∀ c ∈ L ++ d2, c.isAlpha = true ∨ c.isDigit = true := by
    intro c hc
    rcases List.mem_append.mp hc with h | h
    · exact Or.inl (hL.2 c h)
    · exact Or.inr (hd2.2 c h)
  have hw_nodot : ∀ c ∈ L ++ d2, (!(c = '.')) = true := by
    intro c hc
    rcases hw_class c hc with h | h
    · have : c ≠ '.' := ne_of_isAlpha h (show ('.' : Char).isAlpha = false by decide)
      simp [this]
    · have : c ≠ '.' := ne_of_isDigit h (show ('.' : Char).isDigit = false by decide)
      simp [this]
  have hw_nows : ∀ c ∈ L ++ d2, pythonIsSpace c = false := by
    intro c hc
    rcases hw_class c hc with h | h
    · exact ws_false_of_isAlpha h
    · exact ws_false_of_isDigit h
  have hshape : p ++ ['/'] ++ d ++ ['.'] ++ L ++ d2 =
      (p ++ '/' :: d) ++ '.' :: (L ++ d2) := by
    simp [List.append_assoc]
  have hlast : last_token_after_dot ⟨p ++ ['/'] ++ d ++ ['.'] ++ L ++ d2⟩ = ⟨L ++ d2⟩ := by
    unfold last_token_after_dot
    show (⟨pyStripL (afterLastDot (p ++ ['/'] ++ d ++ ['.'] ++ L ++ d2))⟩ : String) = _
    rw [hshape, afterLastDot_append _ _ hw_nodot, pyStripL_eq_self_of_no_ws hw_nows]
  rw [hlast]
  obtain ⟨e, es, rfl⟩ : ∃ e es, d2 = e :: es := by
    cases d2 with
    | nil => exact absurd rfl hd2.1
    | cons e es => exact ⟨e, es, rfl⟩
  have htake : (L ++ e :: es).takeWhile Char.isAlpha = L := by
    rw [takeWhile_append_all _ hL.2]
    rw [takeWhile_cons_neg _ (alpha_false_of_isDigit (hd2.2 e (List.mem_cons_self e es)))]
    simp
  have hmatch : matchesTypeNum (L ++ e :: es) = true := by
    unfold matchesTypeNum
    simp only [htake, List.drop_left]
    simp only [Bool.and_eq_true, Bool.not_eq_true']
    refine ⟨⟨?_, ?_⟩, ?_⟩
    · cases L with
      | nil => exact absurd rfl hL.1
      | cons x xs => rfl
    · rfl
    · rw [List.all_eq_true]
      exact fun c hc => hd2.2 c hc
  constructor
  · unfold split_type_number
    have hdata : (⟨L ++ e :: es⟩ : String).data = L ++ e :: es := rfl
    rw [hdata]
    rw [pyStripL_eq_self_of_no_ws hw_nows]
    rw [if_pos hmatch, htake, List.drop_left]
  constructor
  · show (⟨devAux (p ++ ['/'] ++ d ++ ['.'] ++ L ++ (e :: es))⟩ : String) = _
    rw [devAux_eq_spec]
  · obtain ⟨d0, ds, rfl⟩ : ∃ d0 ds, d = d0 :: ds := by
      cases d with
      | nil => exact absurd rfl hd.1
      | cons d0 ds => exact ⟨d0, ds, rfl⟩
    have hdrop : (p ++ ['/'] ++ (d0 :: ds) ++ ['.'] ++ L ++ (e :: es)).drop p.length =
        '/' :: ((d0 :: ds) ++ '.' :: (L ++ e :: es)) := by
      have harr : p ++ ['/'] ++ (d0 :: ds) ++ ['.'] ++ L ++ (e :: es) =
          p ++ ('/' :: ((d0 :: ds) ++ '.' :: (L ++ e :: es))) := by
        simp [List.append_assoc]
      rw [harr, List.drop_left]
    have htaked : ((d0 :: ds) ++ '.' :: (L ++ e :: es)).takeWhile Char.isDigit = d0 :: ds := by
      rw [takeWhile_append_all _ hd.2, takeWhile_cons_neg _ (by decide)]
      simp
    have hhit : devHitAt (p ++ ['/'] ++ (d0 :: ds) ++ ['.'] ++ L ++ (e :: es)) p.length = true := by
      rw [devHitAt_of_drop hdrop, htaked]
      rw [List.drop_left]
      simp [isSep]
    have hlt : p.length < (p ++ ['/'] ++ (d0 :: ds) ++ ['.'] ++ L ++ (e :: es)).length := by
      simp [List.length_append]
    have hsome : ((List.range (p ++ ['/'] ++ (d0 :: ds) ++ ['.'] ++ L ++ (e :: es)).length).find?
        (devHitAt (p ++ ['/'] ++ (d0 :: ds) ++ ['.'] ++ L ++ (e :: es)))).isSome := by
      rw [List.find?_isSome]
      exact ⟨p.length, List.mem_range.mpr hlt, hhit⟩
    unfold specDevNumber
    obtain ⟨i, hi⟩ := Option.isSome_iff_exists.mp hsome
    rw [hi]
    show digitRunAt (p ++ ['/'] ++ (d0 :: ds) ++ ['.'] ++ L ++ (e :: es)) (i + 1) ≠ []
    have hhiti := List.find?_some hi
    cases hdropi : (p ++ ['/'] ++ (d0 :: ds) ++ ['.'] ++ L ++ (e :: es)).drop i with
    | nil =>
      have hfalse : devHitAt (p ++ ['/'] ++ (d0 :: ds) ++ ['.'] ++ L ++ (e :: es)) i = false := by
        unfold devHitAt
        rw [hdropi]
      rw [hfalse] at hhiti
      cases hhiti
    | cons c0 rest0 =>
      rw [devHitAt_of_drop hdropi, Bool.and_assoc, Bool.and_eq_true] at hhiti
      have h2 := hhiti.2
      rw [Bool.and_eq_true] at h2
      have hne := h2.1
      have hdrop1 : (p ++ ['/'] ++ (d0 :: ds) ++ ['.'] ++ L ++ (e :: es)).drop (i + 1) = rest0 := by
        rw [← List.tail_drop, hdropi]
        rfl
      unfold digitRunAt
      rw [hdrop1]
      intro hc
      rw [hc] at hne
      exact absurd hne (by decide)

/-- Witness for C1 at the concrete reference `//Morisset/10409.av28`
(lower-case letters, to exercise the uppercasing). -/
theorem claim_C1_reference_pipeline_witness :
    (("10409".data ≠ [] ∧ ∀ c ∈ "10409".data, c.isDigit = true) ∧
      ("av".data ≠ [] ∧ ∀ c ∈ "av".data, c.isAlpha = true) ∧
      ("28".data ≠ [] ∧ ∀ c ∈ "28".data, c.isDigit = true)) ∧
      (split_type_number (last_token_after_dot
          ⟨"//Morisset".data ++ ['/'] ++ "10409".data ++ ['.'] ++ "av".data ++ "28".data⟩) =
          (⟨"av".data.map Char.toUpper⟩, ⟨"28".data⟩) ∧
        extract_dev_number_from_ref
            ⟨"//Morisset".data ++ ['/'] ++ "10409".data ++ ['.'] ++ "av".data ++ "28".data⟩ =
          ⟨specDevNumber ("//Morisset".data ++ ['/'] ++ "10409".data ++ ['.'] ++
            "av".data ++ "28".data)⟩ ∧
        specDevNumber ("//Morisset".data ++ ['/'] ++ "10409".data ++ ['.'] ++
          "av".data ++ "28".data) ≠ []) :=
  ⟨⟨⟨by decide, by decide⟩, ⟨by decide, by decide⟩, ⟨by decide, by decide⟩⟩,
    claim_C1_reference_pipeline "//Morisset".data "10409".data "av".data "28".data
      ⟨by decide, by decide⟩ ⟨by decide, by decide⟩ ⟨by decide, by decide⟩⟩

/-! ## C3: idempotence of the normalizer -/

theorem noPair_tail {a b c : Char} {t : List Char} (h : noPair a b (c :: t) = true) :
    noPair a b t = true := by
  cases t with
  | nil => rfl
  | cons d t' =>
    rw [show noPair a b (c :: d :: t') = (!(c = a && d = b) && noPair a b (d :: t')) from rfl,
      Bool.and_eq_true] at h
    exact h.2

theorem noPair_cons_of_ne {a b c : Char} {t : List Char} (hne : c ≠ a)
    (ht : noPair a b t = true) : noPair a b (c :: t) = true := by
  cases t with
  | nil => rfl
  | cons d t' =>
    rw [show noPair a b (c :: d :: t') = (!(c = a && d = b) && noPair a b (d :: t')) from rfl,
      Bool.and_eq_true]
    refine ⟨?_, ht⟩
    simp [hne]

theorem noPair_cons_of_head {a b c d : Char} {t : List Char} (hd : ¬(c = a ∧ d = b))
    (ht : noPair a b (d :: t) = true) : noPair a b (c :: d :: t) = true := by
  rw [show noPair a b (c :: d :: t) = (!(c = a && d = b) && noPair a b (d :: t)) from rfl,
    Bool.and_eq_true]
  refine ⟨?_, ht⟩
  by_cases h1 : c = a
  · by_cases h2 : d = b
    · exact absurd ⟨h1, h2⟩ hd
    · simp [h2]
  · simp [h1]

theorem noPair_of_not_mem {a b : Char} {l : List Char} (h : a ∉ l) : noPair a b l = true := by
  induction l with
  | nil => rfl
  | cons c t ih =>
    have hca : c ≠ a := fun hc => h (hc ▸ List.mem_cons_self c t)
    exact noPair_cons_of_ne hca (ih (fun hm => h (List.mem_cons_of_mem c hm)))

theorem noPair_prefix {a b : Char} : ∀ {u v : List Char}, noPair a b (u ++ v) = true →
    noPair a b u = true := by
  intro u
  induction u with
  | nil => intro v _; rfl
  | cons c u' ih =>
    intro v h
    cases u' with
    | nil => rfl
    | cons d u'' =>
      have hh : ¬(c = a ∧ d = b) := by
        intro ⟨h1, h2⟩
        rw [show (c :: d :: u'') ++ v = c :: d :: (u'' ++ v) from rfl] at h
        rw [show noPair a b (c :: d :: (u'' ++ v)) =
          (!(c = a && d = b) && noPair a b (d :: (u'' ++ v))) from rfl, Bool.and_eq_true] at h
        simp [h1, h2] at h
      exact noPair_cons_of_head hh (ih (noPair_tail h))

theorem noPair_suffix {a b : Char} : ∀ {u v : List Char}, noPair a b (u ++ v) = true →
    noPair a b v = true := by
  intro u
  induction u with
  | nil => intro v h; exact h
  | cons c u' ih => intro v h; exact ih (noPair_tail h)

theorem mem_replNbsp {c : Char} {l : List Char} (h : c ∈ replNbsp l) : c = ' ' ∨ c ∈ l := by
  unfold replNbsp at h
  rcases List.mem_map.mp h with ⟨x, hx, hfx⟩
  by_cases hxn : x = '\u00A0'
  · left; rw [← hfx, if_pos hxn]
  · right; rw [← hfx, if_neg hxn]; exact hx

theorem mem_replZw {c : Char} {l : List Char} (h : c ∈ replZw l) : c ∈ l :=
  (List.mem_filter.mp h).1

theorem mem_replA0 {c : Char} {l : List Char} (h : c ∈ replA0 l) : c = '\u00B0' ∨ c ∈ l := by
  induction l using replA0.induct with
  | case1 => cases h
  | case2 x =>
    right
    simpa [replA0] using h
  | case3 a b t hab ih =>
    rw [replA0, if_pos hab] at h
    rcases List.mem_cons.mp h with rfl | h'
    · exact Or.inl rfl
    · rcases ih h' with h'' | h''
      · exact Or.inl h''
      · exact Or.inr (List.mem_cons_of_mem a (List.mem_cons_of_mem b h''))
  | case4 a b t hab ih =>
    rw [replA0, if_neg hab] at h
    rcases List.mem_cons.mp h with rfl | h'
    · exact Or.inr (List.mem_cons_self _ _)
    · rcases ih h' with h'' | h''
      · exact Or.inl h''
      · exact Or.inr (List.mem_cons_of_mem a h'')

theorem mem_replRC {c : Char} {l : List Char} (h : c ∈ replRC l) : c = '\u00B0' ∨ c ∈ l := by
  induction l using replRC.induct with
  | case1 => cases h
  | case2 x =>
    right
    simpa [replRC] using h
  | case3 a b t hab ih =>
    rw [replRC, if_pos hab] at h
    rw [Bool.and_eq_true] at hab
    rcases List.mem_cons.mp h with rfl | h'
    · exact Or.inl rfl
    · rcases List.mem_cons.mp h' with rfl | h''
      · right
        rw [show b = 'C' from by simpa using hab.2]
        exact List.mem_cons_of_mem a (List.mem_cons_self _ _)
      · rcases ih h'' with h3 | h3
        · exact Or.inl h3
        · exact Or.inr (List.mem_cons_of_mem a (List.mem_cons_of_mem b h3))
  | case4 a b t hab ih =>
    rw [replRC, if_neg hab] at h
    rcases List.mem_cons.mp h with rfl | h'
    · exact Or.inr (List.mem_cons_self _ _)
    · rcases ih h' with h'' | h''
      · exact Or.inl h''
      · exact Or.inr (List.mem_cons_of_mem a h'')

theorem mem_replRF {c : Char} {l : List Char} (h : c ∈ replRF l) : c = '\u00B0' ∨ c ∈ l := by
  induction l using replRF.induct with
  | case1 => cases h
  | case2 x =>
    right
    simpa [replRF] using h
  | case3 a b t hab ih =>
    rw [replRF, if_pos hab] at h
    rw [Bool.and_eq_true] at hab
    rcases List.mem_cons.mp h with rfl | h'
    · exact Or.inl rfl
    · rcases List.mem_cons.mp h' with rfl | h''
      · right
        rw [show b = 'F' from by simpa using hab.2]
        exact List.mem_cons_of_mem a (List.mem_cons_self _ _)
      · rcases ih h'' with h3 | h3
        · exact Or.inl h3
        · exact Or.inr (List.mem_cons_of_mem a (List.mem_cons_of_mem b h3))
  | case4 a b t hab ih =>
    rw [replRF, if_neg hab] at h
    rcases List.mem_cons.mp h with rfl | h'
    · exact Or.inr (List.mem_cons_self _ _)
    · rcases ih h' with h'' | h''
      · exact Or.inl h''
      · exact Or.inr (List.mem_cons_of_mem a h'')

theorem mem_replA {c : Char} {l : List Char} (h : c ∈ replA l) : c ∈ l :=
  (List.mem_filter.mp h).1

theorem mem_normalize {c : Char} {l : List Char} (h : c ∈ normalizeMojibakeL l) :
    c = ' ' ∨ c = '\u00B0' ∨ c ∈ l := by
  unfold normalizeMojibakeL at h
  have h1 := mem_replA h
  rcases mem_replRF h1 with h2 | h2
  · exact Or.inr (Or.inl h2)
  rcases mem_replRC h2 with h3 | h3
  · exact Or.inr (Or.inl h3)
  rcases mem_replA0 h3 with h4 | h4
  · exact Or.inr (Or.inl h4)
  have h5 := mem_replZw h4
  rcases mem_replNbsp h5 with h6 | h6
  · exact Or.inl h6
  · exact Or.inr (Or.inr h6)

theorem map_eq_self_of_fix {f : Char → Char} {l : List Char} (h : ∀ c ∈ l, f c = c) :
    l.map f = l := by
  induction l with
  | nil => rfl
  | cons c t ih =>
    rw [List.map_cons, h c (List.mem_cons_self c t), ih (fun x hx => h x (List.mem_cons_of_mem c hx))]

theorem replNbsp_eq_self {l : List Char} (h : '\u00A0' ∉ l) : replNbsp l = l := by
  unfold replNbsp
  apply map_eq_self_of_fix
  intro c hc
  rw [if_neg (show ¬(c = '\u00A0') from fun hceq => h (hceq ▸ hc))]

theorem replZw_eq_self {l : List Char} (h : '\u200B' ∉ l) : replZw l = l := by
  unfold replZw
  rw [List.filter_eq_self]
  intro c hc
  simp only [Bool.not_eq_true']
  by_cases hceq : c = '\u200B'
  · exact absurd (hceq ▸ hc) h
  · simp [hceq]

theorem replA_eq_self {l : List Char} (h : '\u00C2' ∉ l) : replA l = l := by
  unfold replA
  rw [List.filter_eq_self]
  intro c hc
  simp only [Bool.not_eq_true']
  by_cases hceq : c = '\u00C2'
  · exact absurd (hceq ▸ hc) h
  · simp [hceq]

theorem replA0_eq_self {l : List Char} (h : noPair '\u00C2' '\u00B0' l = true) : replA0 l = l := by
  induction l using replA0.induct with
  | case1 => rfl
  | case2 x => rfl
  | case3 a b t hab =>
    exfalso
    rw [Bool.and_eq_true] at hab
    rw [show noPair '\u00C2' '\u00B0' (a :: b :: t) =
      (!(a = '\u00C2' && b = '\u00B0') && noPair '\u00C2' '\u00B0' (b :: t)) from rfl,
      Bool.and_eq_true] at h
    simp [hab.1, hab.2] at h
  | case4 a b t hab ih =>
    rw [replA0, if_neg hab, ih (noPair_tail h)]

theorem replRC_eq_self {l : List Char} (h : noPair '\uFFFD' 'C' l = true) : replRC l = l := by
  induction l using replRC.induct with
  | case1 => rfl
  | case2 x => rfl
  | case3 a b t hab =>
    exfalso
    rw [Bool.and_eq_true] at hab
    rw [show noPair '\uFFFD' 'C' (a :: b :: t) =
      (!(a = '\uFFFD' && b = 'C') && noPair '\uFFFD' 'C' (b :: t)) from rfl,
      Bool.and_eq_true] at h
    simp [hab.1, hab.2] at h
  | case4 a b t hab ih =>
    rw [replRC, if_neg hab, ih (noPair_tail h)]

theorem replRF_eq_self {l : List Char} (h : noPair '\uFFFD' 'F' l = true) : replRF l = l := by
  induction l using replRF.induct with
  | case1 => rfl
  | case2 x => rfl
  | case3 a b t hab =>
    exfalso
    rw [Bool.and_eq_true] at hab
    rw [show noPair '\uFFFD' 'F' (a :: b :: t) =
      (!(a = '\uFFFD' && b = 'F') && noPair '\uFFFD' 'F' (b :: t)) from rfl,
      Bool.and_eq_true] at h
    simp [hab.1, hab.2] at h
  | case4 a b t hab ih =>
    rw [replRF, if_neg hab, ih (noPair_tail h)]

theorem normalize_eq_self {l : List Char}
    (h1 : '\u00A0' ∉ l) (h2 : '\u200B' ∉ l) (h3 : '\u00C2' ∉ l)
    (h4 : noPair '\uFFFD' 'C' l = true) (h5 : noPair '\uFFFD' 'F' l = true) :
    normalizeMojibakeL l = l := by
  unfold normalizeMojibakeL
  rw [replNbsp_eq_self h1, replZw_eq_self h2,
    replA0_eq_self (noPair_of_not_mem h3), replRC_eq_self h4, replRF_eq_self h5,
    replA_eq_self h3]

theorem replRC_head (b : Char) (t : List Char) :
    ∃ ys, replRC (b :: t) = b :: ys ∨ replRC (b :: t) = '\u00B0' :: ys := by
  cases t with
  | nil => exact ⟨[], Or.inl rfl⟩
  | cons d t' =>
    by_cases h : (b = '\uFFFD' && d = 'C') = true
    · refine ⟨'C' :: replRC t', Or.inr ?_⟩
      rw [replRC, if_pos h]
    · refine ⟨replRC (d :: t'), Or.inl ?_⟩
      rw [replRC, if_neg h]

theorem replRF_head (b : Char) (t : List Char) :
    ∃ ys, replRF (b :: t) = b :: ys ∨ replRF (b :: t) = '\u00B0' :: ys := by
  cases t with
  | nil => exact ⟨[], Or.inl rfl⟩
  | cons d t' =>
    by_cases h : (b = '\uFFFD' && d = 'F') = true
    · refine ⟨'F' :: replRF t', Or.inr ?_⟩
      rw [replRF, if_pos h]
    · refine ⟨replRF (d :: t'), Or.inl ?_⟩
      rw [replRF, if_neg h]

theorem noPair_replRC_self (l : List Char) : noPair '\uFFFD' 'C' (replRC l) = true := by
  induction l using replRC.induct with
  | case1 => rfl
  | case2 x => rfl
  | case3 a b t hab ih =>
    rw [replRC, if_pos hab]
    exact noPair_cons_of_ne (by decide) (noPair_cons_of_ne (by decide) ih)
  | case4 a b t hab ih =>
    rw [replRC, if_neg hab]
    obtain ⟨ys, hy | hy⟩ := replRC_head b t
    · rw [hy] at ih ⊢
      refine noPair_cons_of_head ?_ ih
      intro ⟨h1, h2⟩
      exact hab (by simp [h1, h2])
    · rw [hy] at ih ⊢
      refine noPair_cons_of_head ?_ ih
      intro ⟨h1, h2⟩
      exact absurd h2 (by decide)

theorem noPair_replRF_self (l : List Char) : noPair '\uFFFD' 'F' (replRF l) = true := by
  induction l using replRF.induct with
  | case1 => rfl
  | case2 x => rfl
  | case3 a b t hab ih =>
    rw [replRF, if_pos hab]
    exact noPair_cons_of_ne (by decide) (noPair_cons_of_ne (by decide) ih)
  | case4 a b t hab ih =>
    rw [replRF, if_neg hab]
    obtain ⟨ys, hy | hy⟩ := replRF_head b t
    · rw [hy] at ih ⊢
      refine noPair_cons_of_head ?_ ih
      intro ⟨h1, h2⟩
      exact hab (by simp [h1, h2])
    · rw [hy] at ih ⊢
      refine noPair_cons_of_head ?_ ih
      intro ⟨h1, h2⟩
      exact absurd h2 (by decide)

theorem replRF_preserves_noPairRC {l : List Char} (h : noPair '\uFFFD' 'C' l = true) :
    noPair '\uFFFD' 'C' (replRF l) = true := by
  induction l using replRF.induct with
  | case1 => rfl
  | case2 x => rfl
  | case3 a b t hab ih =>
    rw [replRF, if_pos hab]
    exact noPair_cons_of_ne (by decide)
      (noPair_cons_of_ne (by decide) (ih (noPair_tail (noPair_tail h))))
  | case4 a b t hab ih =>
    rw [replRF, if_neg hab]
    have hbt := ih (noPair_tail h)
    obtain ⟨ys, hy | hy⟩ := replRF_head b t
    · rw [hy] at hbt ⊢
      refine noPair_cons_of_head ?_ hbt
      intro ⟨h1, h2⟩
      rw [show noPair '\uFFFD' 'C' (a :: b :: t) =
        (!(a = '\uFFFD' && b = 'C') && noPair '\uFFFD' 'C' (b :: t)) from rfl,
        Bool.and_eq_true] at h
      simp [h1, h2] at h
    · rw [hy] at hbt ⊢
      refine noPair_cons_of_head ?_ hbt
      intro ⟨h1, h2⟩
      exact absurd h2 (by decide)

theorem nbsp_not_mem_replNbsp (l : List Char) : ' ' ∉ replNbsp l := by
  intro h
  rcases List.mem_map.mp h with ⟨x, _, hfx⟩
  by_cases hx : x = ' '
  · rw [if_pos hx] at hfx
    exact absurd hfx (by decide)
  · rw [if_neg hx] at hfx
    exact hx (hfx ▸ rfl)

theorem zw_not_mem_replZw (l : List Char) : '\u200B' ∉ replZw l := by
  intro h
  have := (List.mem_filter.mp h).2
  simp at this

theorem A_not_mem_replA (l : List Char) : '\u00C2' ∉ replA l := by
  intro h
  have := (List.mem_filter.mp h).2
  simp at this

/-- Properties of the first normalization pass on a string free of the
mojibake lead byte U+00C2: no mojibake pattern remains. -/
theorem norm_props {l : List Char} (hA : '\u00C2' ∉ l) :
    ' ' ∉ normalizeMojibakeL l ∧ '\u200B' ∉ normalizeMojibakeL l ∧
      '\u00C2' ∉ normalizeMojibakeL l ∧
      noPair '\uFFFD' 'C' (normalizeMojibakeL l) = true ∧
      noPair '\uFFFD' 'F' (normalizeMojibakeL l) = true := by
  have hw5A : '\u00C2' ∉ replRF (replRC (replA0 (replZw (replNbsp l)))) := by
    intro h
    rcases mem_replRF h with h1 | h1
    · exact absurd h1 (by decide)
    rcases mem_replRC h1 with h2 | h2
    · exact absurd h2 (by decide)
    rcases mem_replA0 h2 with h3 | h3
    · exact absurd h3 (by decide)
    rcases mem_replNbsp (mem_replZw h3) with h4 | h4
    · exact absurd h4 (by decide)
    · exact hA h4
  have hnormeq : normalizeMojibakeL l = replRF (replRC (replA0 (replZw (replNbsp l)))) := by
    unfold normalizeMojibakeL
    rw [replA_eq_self hw5A]
  refine ⟨?_, ?_, ?_, ?_, ?_⟩
  · intro h
    rcases mem_replA h with h0
    rcases mem_replRF h0 with h1 | h1
    · exact absurd h1 (by decide)
    rcases mem_replRC h1 with h2 | h2
    · exact absurd h2 (by decide)
    rcases mem_replA0 h2 with h3 | h3
    · exact absurd h3 (by decide)
    exact nbsp_not_mem_replNbsp l (mem_replZw h3)
  · intro h
    rcases mem_replA h with h0
    rcases mem_replRF h0 with h1 | h1
    · exact absurd h1 (by decide)
    rcases mem_replRC h1 with h2 | h2
    · exact absurd h2 (by decide)
    rcases mem_replA0 h2 with h3 | h3
    · exact absurd h3 (by decide)
    exact zw_not_mem_replZw (replNbsp l) h3
  · unfold normalizeMojibakeL
    exact A_not_mem_replA _
  · rw [hnormeq]
    exact replRF_preserves_noPairRC (noPair_replRC_self _)
  · rw [hnormeq]
    exact noPair_replRF_self _

/-- Idempotence of `_normalize_mojibake` on U+00C2-free input. -/
theorem norm_idem {l : List Char} (hA : '\u00C2' ∉ l) :
    normalizeMojibakeL (normalizeMojibakeL l) = normalizeMojibakeL l := by
  obtain ⟨h1, h2, h3, h4, h5⟩ := norm_props hA
  exact normalize_eq_self h1 h2 h3 h4 h5

theorem mem_collapseWs {c : Char} {l : List Char} (h : c ∈ collapseWs l) : c = ' ' ∨ c ∈ l := by
  induction l using collapseWs.induct with
  | case1 => cases h
  | case2 x hx =>
    rw [collapseWs, if_pos hx] at h
    rcases List.mem_cons.mp h with rfl | h'
    · exact Or.inl rfl
    · cases h'
  | case3 x hx =>
    rw [collapseWs, if_neg hx] at h
    exact Or.inr h
  | case4 x d t hws ih =>
    rw [collapseWs, if_pos hws] at h
    rcases ih h with h' | h'
    · exact Or.inl h'
    · exact Or.inr (List.mem_cons_of_mem x h')
  | case5 x d t hws ih =>
    rw [collapseWs, if_neg hws] at h
    rcases List.mem_cons.mp h with rfl | h'
    · by_cases hx : pythonIsSpace x = true
      · rw [if_pos hx]
        exact Or.inl rfl
      · rw [if_neg hx]
        exact Or.inr (List.mem_cons_self _ _)
    · rcases ih h' with h'' | h''
      · exact Or.inl h''
      · exact Or.inr (List.mem_cons_of_mem x h'')

theorem mem_pyStripL {c : Char} {l : List Char} (h : c ∈ pyStripL l) : c ∈ l := by
  unfold pyStripL at h
  rw [List.mem_reverse] at h
  have h1 := (List.dropWhile_sublist pythonIsSpace).mem h
  rw [List.mem_reverse] at h1
  exact (List.dropWhile_sublist pythonIsSpace).mem h1

theorem collapse_head_ws : ∀ (t : List Char) (d : Char), pythonIsSpace d = true →
    ∃ ys, collapseWs (d :: t) = ' ' :: ys := by
  intro t
  induction t with
  | nil =>
    intro d hd
    exact ⟨[], by rw [collapseWs, if_pos hd]⟩
  | cons e t' ih =>
    intro d hd
    by_cases he : pythonIsSpace e = true
    · obtain ⟨ys, hy⟩ := ih e he
      refine ⟨ys, ?_⟩
      rw [collapseWs, if_pos (by rw [hd, he]; rfl), hy]
    · refine ⟨collapseWs (e :: t'), ?_⟩
      rw [collapseWs, if_neg (by rw [hd, Bool.eq_false_iff.mpr he]; simp), if_pos hd]

theorem collapse_head_nws {d : Char} (t : List Char) (hd : pythonIsSpace d = false) :
    ∃ ys, collapseWs (d :: t) = d :: ys := by
  cases t with
  | nil =>
    exact ⟨[], by rw [collapseWs, if_neg (by rw [hd]; simp)]⟩
  | cons e t' =>
    refine ⟨collapseWs (e :: t'), ?_⟩
    rw [collapseWs, if_neg (by rw [hd]; simp), if_neg (by rw [hd]; simp)]

theorem collapse_noPair {a b : Char} (ha : a ≠ ' ') (hb : b ≠ ' ') :
    ∀ {l : List Char}, noPair a b l = true → noPair a b (collapseWs l) = true := by
  intro l
  induction l using collapseWs.induct with
  | case1 => intro _; rfl
  | case2 x hx =>
    intro _
    rw [collapseWs, if_pos hx]; rfl
  | case3 x hx =>
    intro _
    rw [collapseWs, if_neg hx]; rfl
  | case4 x d t hws ih =>
    intro h
    rw [collapseWs, if_pos hws]
    exact ih (noPair_tail h)
  | case5 x d t hws ih =>
    intro h
    rw [collapseWs, if_neg hws]
    have iht := ih (noPair_tail h)
    by_cases hd : pythonIsSpace d = true
    · obtain ⟨ys, hy⟩ := collapse_head_ws t d hd
      rw [hy] at iht ⊢
      refine noPair_cons_of_head ?_ iht
      intro ⟨_, h2⟩
      exact hb h2.symm
    · have hd' : pythonIsSpace d = false := Bool.eq_false_iff.mpr hd
      obtain ⟨ys, hy⟩ := collapse_head_nws t hd'
      rw [hy] at iht ⊢
      by_cases hx : pythonIsSpace x = true
      · rw [if_pos hx]
        refine noPair_cons_of_head ?_ iht
        intro ⟨h1, _⟩
        exact ha h1.symm
      · rw [if_neg hx]
        refine noPair_cons_of_head ?_ iht
        intro ⟨h1, h2⟩
        rw [show noPair a b (x :: d :: t) = (!(x = a && d = b) && noPair a b (d :: t)) from rfl,
          Bool.and_eq_true] at h
        simp [h1, h2] at h

theorem collapse_noPair_space :
    ∀ (l : List Char), noPair ' ' ' ' (collapseWs l) = true := by
  intro l
  induction l using collapseWs.induct with
  | case1 => rfl
  | case2 x hx =>
    rw [collapseWs, if_pos hx]; rfl
  | case3 x hx =>
    rw [collapseWs, if_neg hx]; rfl
  | case4 x d t hws ih =>
    rw [collapseWs, if_pos hws]
    exact ih
  | case5 x d t hws ih =>
    rw [collapseWs, if_neg hws]
    by_cases hd : pythonIsSpace d = true
    · have hx : pythonIsSpace x = false := by
        cases hxx : pythonIsSpace x
        · rfl
        · exfalso
          exact hws (by rw [hxx, hd]; rfl)
      obtain ⟨ys, hy⟩ := collapse_head_ws t d hd
      rw [hy] at ih ⊢
      rw [if_neg (Bool.eq_false_iff.mp hx)]
      refine noPair_cons_of_ne ?_ ih
      intro hc
      rw [hc] at hx
      exact absurd hx (by decide)
    · have hd' : pythonIsSpace d = false := Bool.eq_false_iff.mpr hd
      obtain ⟨ys, hy⟩ := collapse_head_nws t hd'
      rw [hy] at ih ⊢
      have hdne : d ≠ ' ' := by
        intro hc
        rw [hc] at hd'
        exact absurd hd' (by decide)
      by_cases hx : pythonIsSpace x = true
      · rw [if_pos hx]
        refine noPair_cons_of_head ?_ ih
        intro ⟨_, h2⟩
        exact hdne h2
      · rw [if_neg hx]
        refine noPair_cons_of_head ?_ ih
        intro ⟨_, h2⟩
        exact hdne h2

theorem collapse_ws_only_space :
    ∀ {l : List Char} {c : Char}, c ∈ collapseWs l → pythonIsSpace c = true → c = ' ' := by
  intro l
  induction l using collapseWs.induct with
  | case1 => intro c h _; cases h
  | case2 x hx =>
    intro c h hc
    rw [collapseWs, if_pos hx] at h
    rcases List.mem_cons.mp h with rfl | h'
    · rfl
    · cases h'
  | case3 x hx =>
    intro c h hc
    rw [collapseWs, if_neg hx] at h
    rcases List.mem_cons.mp h with rfl | h'
    · exact absurd hc hx
    · cases h'
  | case4 x d t hws ih =>
    intro c h hc
    rw [collapseWs, if_pos hws] at h
    exact ih h hc
  | case5 x d t hws ih =>
    intro c h hc
    rw [collapseWs, if_neg hws] at h
    rcases List.mem_cons.mp h with heq | h'
    · by_cases hx : pythonIsSpace x = true
      · rw [if_pos hx] at heq
        exact heq
      · rw [if_neg hx] at heq
        rw [heq] at hc
        exact absurd hc hx
    · exact ih h' hc

theorem collapse_eq_self_of_canonical :
    ∀ {l : List Char}, (∀ c ∈ l, pythonIsSpace c = true → c = ' ') →
      noPair ' ' ' ' l = true → collapseWs l = l := by
  intro l
  induction l using collapseWs.induct with
  | case1 => intro _ _; rfl
  | case2 x hx =>
    intro hws _
    rw [collapseWs, if_pos hx, hws x (List.mem_cons_self x []) hx]
  | case3 x hx =>
    intro _ _
    rw [collapseWs, if_neg hx]
  | case4 x d t hws ih =>
    intro hall hnp
    exfalso
    rw [Bool.and_eq_true] at hws
    have hx : x = ' ' := hall x (List.mem_cons_self _ _) hws.1
    have hd : d = ' ' := hall d (List.mem_cons_of_mem x (List.mem_cons_self _ _)) hws.2
    rw [show noPair ' ' ' ' (x :: d :: t) = (!(x = ' ' && d = ' ') && noPair ' ' ' ' (d :: t)) from rfl,
      Bool.and_eq_true] at hnp
    simp [hx, hd] at hnp
  | case5 x d t hws ih =>
    intro hall hnp
    rw [collapseWs, if_neg hws]
    have htl := ih (fun c hc h => hall c (List.mem_cons_of_mem x hc) h) (noPair_tail hnp)
    rw [htl]
    by_cases hx : pythonIsSpace x = true
    · rw [if_pos hx, hall x (List.mem_cons_self _ _) hx]
    · rw [if_neg hx]

theorem pyStrip_noPair {a b : Char} {l : List Char} (h : noPair a b l = true) :
    noPair a b (pyStripL l) = true := by
  obtain ⟨u, hu⟩ := List.dropWhile_suffix (l := l) pythonIsSpace
  have hm : noPair a b (l.dropWhile pythonIsSpace) = true := by
    rw [← hu] at h
    exact noPair_suffix h
  obtain ⟨u2, hu2⟩ := List.dropWhile_suffix (l := (l.dropWhile pythonIsSpace).reverse) pythonIsSpace
  have hmdec : l.dropWhile pythonIsSpace =
      ((l.dropWhile pythonIsSpace).reverse.dropWhile pythonIsSpace).reverse ++ u2.reverse := by
    have hrev := congrArg List.reverse hu2
    rw [List.reverse_append, List.reverse_reverse] at hrev
    exact hrev.symm
  rw [hmdec] at hm
  exact noPair_prefix hm

theorem dropWhile_head_false {p : Char → Bool} :
    ∀ {l : List Char} {c : Char} {t : List Char}, l.dropWhile p = c :: t → p c = false := by
  intro l
  induction l with
  | nil => intro c t h; cases h
  | cons x xs ih =>
    intro c t h
    by_cases hx : p x = true
    · rw [List.dropWhile_cons, if_pos hx] at h
      exact ih h
    · rw [List.dropWhile_cons, if_neg hx] at h
      cases h
      exact Bool.eq_false_iff.mpr hx

theorem dropWhile_idem (p : Char → Bool) (l : List Char) :
    (l.dropWhile p).dropWhile p = l.dropWhile p := by
  cases hd : l.dropWhile p with
  | nil => rfl
  | cons c t => exact dropWhile_cons_neg t (dropWhile_head_false hd)

theorem pyStrip_idem (l : List Char) : pyStripL (pyStripL l) = pyStripL l := by
  have hstep1 : (pyStripL l).dropWhile pythonIsSpace = pyStripL l := by
    cases hr : pyStripL l with
    | nil => rfl
    | cons c t =>
      refine dropWhile_cons_neg t ?_
      obtain ⟨u2, hu2⟩ := List.dropWhile_suffix (l := (l.dropWhile pythonIsSpace).reverse) pythonIsSpace
      have hmdec : l.dropWhile pythonIsSpace = pyStripL l ++ u2.reverse := by
        have hrev := congrArg List.reverse hu2
        rw [List.reverse_append, List.reverse_reverse] at hrev
        exact hrev.symm
      rw [hr] at hmdec
      exact dropWhile_head_false (l := l) (by rw [hmdec]; rfl)
  have hrev2 : (pyStripL l).reverse = (l.dropWhile pythonIsSpace).reverse.dropWhile pythonIsSpace := by
    unfold pyStripL
    rw [List.reverse_reverse]
  show (((pyStripL l).dropWhile pythonIsSpace).reverse.dropWhile pythonIsSpace).reverse = pyStripL l
  rw [hstep1, hrev2, dropWhile_idem, ← hrev2, List.reverse_reverse]

/-- Counterexample to C3 as stated: on `"�ÂC"` the stray-byte removal
pass creates a new `�C` mojibake pattern across the deleted character,
which only the *second* application repairs, so neither
`_normalize_mojibake` nor `_clean_ws` is idempotent. -/
theorem claim_C3_counterexample :
    _clean_ws (_clean_ws "�ÂC") ≠ _clean_ws "�ÂC" ∧
      _normalize_mojibake (_normalize_mojibake "�ÂC") ≠ _normalize_mojibake "�ÂC" := by
  decide

/-- C3 (amended): on every string that does not contain the mojibake
lead byte U+00C2, applying the whitespace/mojibake normalizer twice
yields the same result as applying it once — and likewise for the pure
mojibake pass. -/
theorem claim_C3_normalizer_idempotent (s : String) (hA : 'Â' ∉ s.data) :
    _normalize_mojibake (_normalize_mojibake s) = _normalize_mojibake s ∧
      _clean_ws (_clean_ws s) = _clean_ws s := by
  constructor
  · show (⟨normalizeMojibakeL (normalizeMojibakeL s.data)⟩ : String) = ⟨normalizeMojibakeL s.data⟩
    rw [norm_idem hA]
  · show (⟨cleanWsL (cleanWsL s.data)⟩ : String) = ⟨cleanWsL s.data⟩
    obtain ⟨hnb, hzw, hA2, hrc, hrf⟩ := norm_props hA
    have hy2nb : ' ' ∉ cleanWsL s.data := by
      intro h
      rcases mem_collapseWs (mem_pyStripL h) with h' | h'
      · exact absurd h' (by decide)
      · exact hnb h'
    have hy2zw : '​' ∉ cleanWsL s.data := by
      intro h
      rcases mem_collapseWs (mem_pyStripL h) with h' | h'
      · exact absurd h' (by decide)
      · exact hzw h'
    have hy2A : 'Â' ∉ cleanWsL s.data := by
      intro h
      rcases mem_collapseWs (mem_pyStripL h) with h' | h'
      · exact absurd h' (by decide)
      · exact hA2 h'
    have hy2rc : noPair '�' 'C' (cleanWsL s.data) = true :=
      pyStrip_noPair (collapse_noPair (by decide) (by decide) hrc)
    have hy2rf : noPair '�' 'F' (cleanWsL s.data) = true :=
      pyStrip_noPair (collapse_noPair (by decide) (by decide) hrf)
    have hnorm2 : normalizeMojibakeL (cleanWsL s.data) = cleanWsL s.data :=
      normalize_eq_self hy2nb hy2zw hy2A hy2rc hy2rf
    have hcanon : ∀ c ∈ cleanWsL s.data, pythonIsSpace c = true → c = ' ' := by
      intro c hc hwsc
      exact collapse_ws_only_space (mem_pyStripL hc) hwsc
    have hnp : noPair ' ' ' ' (cleanWsL s.data) = true :=
      pyStrip_noPair (collapse_noPair_space _)
    have hcoll : collapseWs (cleanWsL s.data) = cleanWsL s.data :=
      collapse_eq_self_of_canonical hcanon hnp
    have hlist : cleanWsL (cleanWsL s.data) = cleanWsL s.data := by
      rw [show cleanWsL (cleanWsL s.data) =
        pyStripL (collapseWs (normalizeMojibakeL (cleanWsL s.data))) from rfl]
      rw [hnorm2, hcoll]
      rw [show cleanWsL s.data = pyStripL (collapseWs (normalizeMojibakeL s.data)) from rfl]
      rw [pyStrip_idem]
    exact congrArg (fun l => (⟨l⟩ : String)) hlist

/-- Witness for C3 at a concrete U+00C2-free string containing
whitespace runs and a repairable `�C`. -/
theorem claim_C3_normalizer_idempotent_witness :
    ('Â' ∉ ("  23.4  �C ").data) ∧
      (_normalize_mojibake (_normalize_mojibake "  23.4  �C ") =
          _normalize_mojibake "  23.4  �C " ∧
        _clean_ws (_clean_ws "  23.4  �C ") = _clean_ws "  23.4  �C ") :=
  ⟨by decide, claim_C3_normalizer_idempotent "  23.4  �C " (by decide)⟩

/-! ## C9: CSV round trip -/

theorem mem_escQ {c : Char} {f : List Char} (h : c ∈ escQ f) : c ∈ f := by
  induction f with
  | nil => cases h
  | cons x t ih =>
    by_cases hx : x = '"'
    · rw [show escQ (x :: t) = if x = '"' then '"' :: '"' :: escQ t else x :: escQ t from rfl,
        if_pos hx] at h
      rcases List.mem_cons.mp h with rfl | h'
      · rw [hx]; exact List.mem_cons_self _ _
      · rcases List.mem_cons.mp h' with rfl | h''
        · rw [hx]; exact List.mem_cons_self _ _
        · exact List.mem_cons_of_mem x (ih h'')
    · rw [show escQ (x :: t) = if x = '"' then '"' :: '"' :: escQ t else x :: escQ t from rfl,
        if_neg hx] at h
      rcases List.mem_cons.mp h with rfl | h'
      · exact List.mem_cons_self _ _
      · exact List.mem_cons_of_mem x (ih h')

theorem mem_encField {c : Char} {f : List Char} (h : c ∈ encField f) : c = '"' ∨ c ∈ f := by
  unfold encField at h
  by_cases hq : needsQuote f = true
  · rw [if_pos hq] at h
    rcases List.mem_cons.mp h with rfl | h'
    · exact Or.inl rfl
    · rcases List.mem_append.mp h' with h'' | h''
      · exact Or.inr (mem_escQ h'')
      · rcases List.mem_singleton.mp h'' with rfl
        exact Or.inl rfl
  · rw [if_neg hq] at h
    exact Or.inr h

theorem mem_joinComma {c : Char} : ∀ {fs : List (List Char)}, c ∈ joinComma fs →
    c = ',' ∨ ∃ f ∈ fs, c ∈ f := by
  intro fs
  induction fs with
  | nil => intro h; cases h
  | cons f rest ih =>
    intro h
    cases rest with
    | nil =>
      exact Or.inr ⟨f, List.mem_singleton.mpr rfl, h⟩
    | cons g rest' =>
      rw [show joinComma (f :: g :: rest') = f ++ ',' :: joinComma (g :: rest') from rfl] at h
      rcases List.mem_append.mp h with h' | h'
      · exact Or.inr ⟨f, List.mem_cons_self _ _, h'⟩
      · rcases List.mem_cons.mp h' with rfl | h''
        · exact Or.inl rfl
        · rcases ih h'' with h3 | ⟨g', hg', hcg⟩
          · exact Or.inl h3
          · exact Or.inr ⟨g', List.mem_cons_of_mem f hg', hcg⟩

theorem parseUnq_no_comma : ∀ (f acc : List Char), (',' ∉ f) →
    parseUnq acc f = (acc.reverse ++ f, none) := by
  intro f
  induction f with
  | nil => intro acc _; simp [parseUnq]
  | cons c t ih =>
    intro acc hc
    have hcne : ¬(c = ',') := fun h => hc (h ▸ List.mem_cons_self c t)
    rw [show parseUnq acc (c :: t) =
      (if c = ',' then (acc.reverse, some t) else parseUnq (c :: acc) t) from rfl, if_neg hcne]
    rw [ih (c :: acc) (fun h => hc (List.mem_cons_of_mem c h))]
    simp

theorem parseUnq_comma : ∀ (f acc rest : List Char), (',' ∉ f) →
    parseUnq acc (f ++ ',' :: rest) = (acc.reverse ++ f, some rest) := by
  intro f
  induction f with
  | nil =>
    intro acc rest _
    rw [show ([] : List Char) ++ ',' :: rest = ',' :: rest from rfl]
    rw [show parseUnq acc (',' :: rest) =
      (if (',' : Char) = ',' then (acc.reverse, some rest) else parseUnq (',' :: acc) rest) from rfl,
      if_pos rfl]
    simp
  | cons c t ih =>
    intro acc rest hc
    have hcne : ¬(c = ',') := fun h => hc (h ▸ List.mem_cons_self c t)
    rw [show (c :: t) ++ ',' :: rest = c :: (t ++ ',' :: rest) from rfl]
    rw [show parseUnq acc (c :: (t ++ ',' :: rest)) =
      (if c = ',' then (acc.reverse, some (t ++ ',' :: rest)) else parseUnq (c :: acc) (t ++ ',' :: rest))
      from rfl, if_neg hcne]
    rw [ih (c :: acc) rest (fun h => hc (List.mem_cons_of_mem c h))]
    simp

theorem parseQ_step (acc : List Char) (c : Char) (rest : List Char) (h : ¬(c = '"')) :
    parseQ acc (c :: rest) = parseQ (c :: acc) rest := by
  rw [parseQ.eq_def]
  dsimp only
  rw [if_neg h]

theorem parseQ_quote_quote (acc r2 : List Char) :
    parseQ acc ('"' :: '"' :: r2) = parseQ ('"' :: acc) r2 := by
  rw [parseQ.eq_def]
  try dsimp only
  rw [if_pos rfl]
  try dsimp only
  rw [if_pos rfl]

theorem parseQ_quote_comma (acc r2 : List Char) :
    parseQ acc ('"' :: ',' :: r2) = (acc.reverse, some r2) := by
  rw [parseQ.eq_def]
  try dsimp only
  rw [if_pos rfl]
  try dsimp only
  rw [if_neg (by decide), if_pos rfl]

theorem parseQ_quote_end (acc : List Char) :
    parseQ acc ['"'] = (acc.reverse, none) := by
  rw [parseQ.eq_def]
  try dsimp only
  rw [if_pos rfl]

theorem parseQ_esc_end : ∀ (f acc : List Char),
    parseQ acc (escQ f ++ ['"']) = (acc.reverse ++ f, none) := by
  intro f
  induction f with
  | nil =>
    intro acc
    rw [show escQ [] ++ ['"'] = ['"'] from rfl, parseQ_quote_end]
    simp
  | cons c t ih =>
    intro acc
    by_cases hc : c = '"'
    · subst hc
      rw [show escQ ('"' :: t) = '"' :: '"' :: escQ t from rfl]
      rw [show ('"' :: '"' :: escQ t) ++ ['"'] = '"' :: '"' :: (escQ t ++ ['"']) from rfl]
      rw [parseQ_quote_quote, ih ('"' :: acc)]
      simp
    · rw [show escQ (c :: t) = if c = '"' then '"' :: '"' :: escQ t else c :: escQ t from rfl,
        if_neg hc]
      rw [show (c :: escQ t) ++ ['"'] = c :: (escQ t ++ ['"']) from rfl]
      rw [parseQ_step acc c _ hc, ih (c :: acc)]
      simp

theorem parseQ_esc_comma : ∀ (f acc rest : List Char),
    parseQ acc (escQ f ++ '"' :: ',' :: rest) = (acc.reverse ++ f, some rest) := by
  intro f
  induction f with
  | nil =>
    intro acc rest
    rw [show escQ [] ++ '"' :: ',' :: rest = '"' :: ',' :: rest from rfl, parseQ_quote_comma]
    simp
  | cons c t ih =>
    intro acc rest
    by_cases hc : c = '"'
    · subst hc
      rw [show escQ ('"' :: t) = '"' :: '"' :: escQ t from rfl]
      rw [show ('"' :: '"' :: escQ t) ++ '"' :: ',' :: rest =
        '"' :: '"' :: (escQ t ++ '"' :: ',' :: rest) from rfl]
      rw [parseQ_quote_quote, ih ('"' :: acc) rest]
      simp
    · rw [show escQ (c :: t) = if c = '"' then '"' :: '"' :: escQ t else c :: escQ t from rfl,
        if_neg hc]
      rw [show (c :: escQ t) ++ '"' :: ',' :: rest = c :: (escQ t ++ '"' :: ',' :: rest) from rfl]
      rw [parseQ_step acc c _ hc, ih (c :: acc) rest]
      simp

theorem needsQuote_false_not_mem {f : List Char} (h : needsQuote f = false) :
    ',' ∉ f ∧ '"' ∉ f := by
  unfold needsQuote at h
  rw [← Bool.not_eq_true, List.any_eq_true] at h
  push_neg at h
  constructor
  · intro hc
    have := h ',' hc
    simp at this
  · intro hc
    have := h '"' hc
    simp at this

theorem parseRecAux_nil (fuel : Nat) : parseRecAux (fuel + 1) [] = [[]] := by
  rw [parseRecAux.eq_def]

theorem parseRecAux_quoted (fuel : Nat) (t : List Char) :
    parseRecAux (fuel + 1) ('"' :: t) =
      (match (parseQ [] t).2 with
       | none => [(parseQ [] t).1]
       | some rest => (parseQ [] t).1 :: parseRecAux fuel rest) := by
  rw [parseRecAux.eq_def]
  try dsimp only
  rw [if_pos rfl]

theorem parseRecAux_unquoted (fuel : Nat) (c : Char) (t : List Char) (h : ¬(c = '"')) :
    parseRecAux (fuel + 1) (c :: t) =
      (match (parseUnq [] (c :: t)).2 with
       | none => [(parseUnq [] (c :: t)).1]
       | some rest => (parseUnq [] (c :: t)).1 :: parseRecAux fuel rest) := by
  rw [parseRecAux.eq_def]
  try dsimp only
  rw [if_neg h]

theorem parseRecAux_enc : ∀ (fields : List (List Char)) (fuel : Nat),
    fields.length ≤ fuel → fields ≠ [] →
    parseRecAux fuel (joinComma (fields.map encField)) = fields := by
  intro fields
  induction fields with
  | nil => intro fuel _ hne; exact absurd rfl hne
  | cons f fs ih =>
    intro fuel hlen _
    obtain ⟨fuel', rfl⟩ : ∃ fuel', fuel = fuel' + 1 := by
      cases fuel with
      | zero => simp at hlen
      | succ n => exact ⟨n, rfl⟩
    cases fs with
    | nil =>
      rw [show ([f] : List (List Char)).map encField = [encField f] from rfl,
        show joinComma [encField f] = encField f from rfl]
      by_cases hq : needsQuote f = true
      · rw [show encField f = '"' :: (escQ f ++ ['"']) from by unfold encField; rw [if_pos hq]]
        rw [parseRecAux_quoted, parseQ_esc_end f []]
        simp
      · have hq' : needsQuote f = false := Bool.eq_false_iff.mpr hq
        rw [show encField f = f from by unfold encField; rw [if_neg hq]]
        obtain ⟨hcom, hquo⟩ := needsQuote_false_not_mem hq'
        cases f with
        | nil => exact parseRecAux_nil fuel'
        | cons c t =>
          have hc : ¬(c = '"') := fun hh => hquo (hh ▸ List.mem_cons_self c t)
          rw [parseRecAux_unquoted fuel' c t hc, parseUnq_no_comma (c :: t) [] hcom]
          simp
    | cons g gs =>
      have hjc : joinComma ((f :: g :: gs).map encField) =
          encField f ++ ',' :: joinComma ((g :: gs).map encField) := rfl
      rw [hjc]
      have hlen' : (g :: gs).length ≤ fuel' := by
        simp only [List.length_cons] at hlen ⊢
        omega
      by_cases hq : needsQuote f = true
      · rw [show encField f = '"' :: (escQ f ++ ['"']) from by unfold encField; rw [if_pos hq]]
        rw [show ('"' :: (escQ f ++ ['"'])) ++ ',' :: joinComma ((g :: gs).map encField) =
          '"' :: (escQ f ++ '"' :: ',' :: joinComma ((g :: gs).map encField)) from by simp]
        rw [parseRecAux_quoted, parseQ_esc_comma f []]
        dsimp only
        rw [ih fuel' hlen' (by simp)]
        simp
      · have hq' : needsQuote f = false := Bool.eq_false_iff.mpr hq
        rw [show encField f = f from by unfold encField; rw [if_neg hq]]
        obtain ⟨hcom, hquo⟩ := needsQuote_false_not_mem hq'
        cases f with
        | nil =>
          rw [show ([] : List Char) ++ ',' :: joinComma ((g :: gs).map encField) =
            ',' :: joinComma ((g :: gs).map encField) from rfl]
          rw [parseRecAux_unquoted fuel' ',' _ (by decide)]
          rw [show ((',' : Char) :: joinComma ((g :: gs).map encField)) =
            [] ++ ',' :: joinComma ((g :: gs).map encField) from rfl]
          rw [parseUnq_comma [] [] _ (by simp)]
          dsimp only
          rw [ih fuel' hlen' (by simp)]
          simp
        | cons c t =>
          have hc : ¬(c = '"') := fun hh => hquo (hh ▸ List.mem_cons_self c t)
          rw [show ((c :: t) ++ ',' :: joinComma ((g :: gs).map encField)) =
            c :: (t ++ ',' :: joinComma ((g :: gs).map encField)) from rfl]
          rw [parseRecAux_unquoted fuel' c _ hc]
          rw [show (c :: (t ++ ',' :: joinComma ((g :: gs).map encField))) =
            (c :: t) ++ ',' :: joinComma ((g :: gs).map encField) from rfl]
          rw [parseUnq_comma (c :: t) [] _ hcom]
          dsimp only
          rw [ih fuel' hlen' (by simp)]
          simp

theorem splitLinesAux_line : ∀ (line acc rest : List Char), '\n' ∉ line →
    splitLinesAux acc (line ++ '\n' :: rest) = (acc.reverse ++ line) :: splitLinesAux [] rest := by
  intro line
  induction line with
  | nil =>
    intro acc rest _
    rw [show ([] : List Char) ++ '\n' :: rest = '\n' :: rest from rfl]
    rw [show splitLinesAux acc ('\n' :: rest) =
      (if ('\n' : Char) = '\n' then acc.reverse :: splitLinesAux [] rest
       else splitLinesAux ('\n' :: acc) rest) from rfl, if_pos rfl]
    simp
  | cons c t ih =>
    intro acc rest hnl
    have hc : ¬(c = '\n') := fun hh => hnl (hh ▸ List.mem_cons_self c t)
    rw [show ((c :: t) ++ '\n' :: rest) = c :: (t ++ '\n' :: rest) from rfl]
    rw [show splitLinesAux acc (c :: (t ++ '\n' :: rest)) =
      (if c = '\n' then acc.reverse :: splitLinesAux [] (t ++ '\n' :: rest)
       else splitLinesAux (c :: acc) (t ++ '\n' :: rest)) from rfl, if_neg hc]
    rw [ih (c :: acc) rest (fun hh => hnl (List.mem_cons_of_mem c hh))]
    simp

theorem length_le_joinComma_enc : ∀ (fields : List (List Char)),
    fields.length ≤ (joinComma (fields.map encField)).length + 1 := by
  intro fields
  induction fields with
  | nil => simp
  | cons f fs ih =>
    cases fs with
    | nil => simp
    | cons g gs =>
      rw [show joinComma ((f :: g :: gs).map encField) =
        encField f ++ ',' :: joinComma ((g :: gs).map encField) from rfl]
      simp only [List.length_cons, List.length_append] at ih ⊢
      omega

theorem encField_ne_nil {f : List Char} (h : f ≠ []) : encField f ≠ [] := by
  unfold encField
  by_cases hq : needsQuote f = true
  · rw [if_pos hq]
    simp
  · rw [if_neg hq]
    exact h

theorem encRecord_ne_nil {rec : List String} (hne : rec ≠ [])
    (hf : ∀ f ∈ rec, f.data ≠ []) : encRecord rec ≠ [] := by
  obtain ⟨f, fs, rfl⟩ : ∃ f fs, rec = f :: fs := by
    cases rec with
    | nil => exact absurd rfl hne
    | cons f fs => exact ⟨f, fs, rfl⟩
  have hfne : encField f.data ≠ [] := encField_ne_nil (hf f (List.mem_cons_self f fs))
  unfold encRecord
  cases fs with
  | nil =>
    rw [show (f :: []).map (fun f => encField f.data) = [encField f.data] from rfl,
      show joinComma [encField f.data] = encField f.data from rfl]
    exact hfne
  | cons g gs =>
    rw [show ((f :: g :: gs).map (fun f => encField f.data)) =
      encField f.data :: ((g :: gs).map (fun f => encField f.data)) from rfl]
    rw [show joinComma (encField f.data :: ((g :: gs).map (fun f => encField f.data))) =
      encField f.data ++ ',' :: joinComma ((g :: gs).map (fun f => encField f.data)) from rfl]
    intro hcontra
    rcases List.append_eq_nil.mp hcontra with ⟨_, h2⟩
    cases h2

theorem nl_not_mem_encRecord {rec : List String}
    (hf : ∀ f ∈ rec, '\n' ∉ f.data) : '\n' ∉ encRecord rec := by
  intro h
  unfold encRecord at h
  rcases mem_joinComma h with h' | ⟨ef, hef, hcef⟩
  · exact absurd h' (by decide)
  · rcases List.mem_map.mp hef with ⟨f, hfmem, rfl⟩
    rcases mem_encField hcef with h'' | h''
    · exact absurd h'' (by decide)
    · exact hf f hfmem h''

theorem parseRecordL_enc (rec : List String) (hne : rec ≠ [])
    (hf : ∀ f ∈ rec, f.data ≠ []) :
    parseRecordL (encRecord rec) = rec.map String.data := by
  unfold parseRecordL
  rw [if_neg (by
    intro hcontra
    exact encRecord_ne_nil hne hf (List.isEmpty_iff.mp hcontra))]
  have hmap : (rec.map String.data).map encField = rec.map (fun f => encField f.data) := by
    rw [List.map_map]
    rfl
  have hlen : (rec.map String.data).length ≤ (encRecord rec).length + 1 := by
    have := length_le_joinComma_enc (rec.map String.data)
    rw [hmap] at this
    simpa [encRecord] using this
  have := parseRecAux_enc (rec.map String.data) ((encRecord rec).length + 1)
    hlen (by
      intro hcontra
      rw [List.map_eq_nil_iff] at hcontra
      exact hne hcontra)
  rw [hmap] at this
  exact this

theorem map_mk_data (rec : List String) :
    (rec.map String.data).map (fun f => (⟨f⟩ : String)) = rec := by
  induction rec with
  | nil => rfl
  | cons f fs ih =>
    rw [List.map_cons, List.map_cons, ih]

theorem parseFile_encFile : ∀ (records : List (List String)),
    (∀ rec ∈ records, rec ≠ [] ∧ ∀ f ∈ rec, f.data ≠ [] ∧ '\n' ∉ f.data) →
    parseFile (encFile records) = records := by
  have hbody : ∀ (X : List Char), parseFile ('﻿' :: X) =
      (splitLinesAux [] X).map (fun line => (parseRecordL line).map (fun f => (⟨f⟩ : String))) := by
    intro X
    unfold parseFile
    try dsimp only
    rw [if_pos rfl]
  intro records hrec
  unfold encFile
  rw [hbody]
  induction records with
  | nil => rfl
  | cons rec recs ih =>
    rw [show ((rec :: recs).map encRecord).foldr (fun line acc => line ++ '\n' :: acc) [] =
      encRecord rec ++ '\n' :: ((recs.map encRecord).foldr (fun line acc => line ++ '\n' :: acc) [])
      from rfl]
    obtain ⟨hne, hfs⟩ := hrec rec (List.mem_cons_self rec recs)
    rw [splitLinesAux_line _ _ _ (nl_not_mem_encRecord (fun f hf => (hfs f hf).2))]
    rw [List.map_cons]
    rw [show (([] : List Char).reverse ++ encRecord rec) = encRecord rec from by simp]
    rw [parseRecordL_enc rec hne (fun f hf => (hfs f hf).1), map_mk_data]
    rw [ih (fun r hr => hrec r (List.mem_cons_of_mem rec hr))]

theorem map_fix {α : Type} {f : α → α} : ∀ {l : List α}, (∀ x ∈ l, f x = x) → l.map f = l := by
  intro l
  induction l with
  | nil => intro _; rfl
  | cons x xs ih =>
    intro h
    rw [List.map_cons, h x (List.mem_cons_self x xs),
      ih (fun y hy => h y (List.mem_cons_of_mem x hy))]

theorem sanitize_fix {s ph : String} (hfix : _clean_ws s = s) (hne : s ≠ "") :
    _sanitize_cell s ph = s := by
  unfold _sanitize_cell
  rw [hfix, if_neg hne]

theorem data_ne_nil {s : String} (h : s ≠ "") : s.data ≠ [] :=
  fun hc => h (show s = "" from congrArg String.mk hc)

theorem fixpoint_no_nl {s : String} (h : _clean_ws s = s) : '\n' ∉ s.data := by
  intro hc
  have hdata : cleanWsL s.data = s.data := congrArg String.data h
  rw [← hdata] at hc
  have := collapse_ws_only_space (mem_pyStripL hc) (by decide)
  exact absurd this (by decide)

/-- C9: writing rows whose seven cells (the four extracted fields, the
device number, the building name, and the device name) are all nonempty
and already normalization fixpoints, with any placeholder, and then
re-parsing the emitted CSV file, returns exactly the header record and
the same seven cell values verbatim. -/
theorem claim_C9_round_trip (rows : List Row) (building dev ph : String)
    (hb : _clean_ws building = building ∧ building ≠ "")
    (hd : _clean_ws dev = dev ∧ dev ≠ "")
    (hrows : ∀ r ∈ rows, ∀ s ∈ [r.obj_type, r.obj_num, r.name, r.units, r.dev_number],
      _clean_ws s = s ∧ s ≠ "") :
    parseFile (encFile (write_csv rows building dev true ph)) =
      headerRow :: rows.map (fun r => sourceCells r building dev) := by
  have hcells : ∀ r ∈ rows, ∀ s ∈ sourceCells r building dev, _clean_ws s = s ∧ s ≠ "" := by
    intro r hr s hs
    unfold sourceCells at hs
    simp only [List.mem_cons, List.not_mem_nil, or_false] at hs
    rcases hs with rfl | rfl | rfl | rfl | rfl | rfl | rfl
    · exact hrows r hr _ (by simp)
    · exact hrows r hr _ (by simp)
    · exact hrows r hr _ (by simp)
    · exact hrows r hr _ (by simp)
    · exact hb
    · exact hrows r hr _ (by simp)
    · exact hd
  have hwrite : write_csv rows building dev true ph =
      headerRow :: rows.map (fun r => sourceCells r building dev) := by
    unfold write_csv
    rw [if_pos rfl]
    rw [show ∀ (x : List (List String)), [headerRow] ++ x = headerRow :: x from fun x => rfl]
    congr 1
    apply List.map_congr_left
    intro r hr
    apply map_fix
    intro s hs
    exact sanitize_fix (hcells r hr s hs).1 (hcells r hr s hs).2
  rw [hwrite]
  apply parseFile_encFile
  intro rec hrec
  rcases List.mem_cons.mp hrec with rfl | hrec'
  · refine ⟨by simp [headerRow], ?_⟩
    intro f hf
    unfold headerRow at hf
    simp only [List.mem_cons, List.not_mem_nil, or_false] at hf
    rcases hf with rfl | rfl | rfl | rfl | rfl | rfl | rfl <;> exact ⟨by decide, by decide⟩
  · rcases List.mem_map.mp hrec' with ⟨r, hr, rfl⟩
    refine ⟨by simp [sourceCells], ?_⟩
    intro f hf
    exact ⟨data_ne_nil (hcells r hr f hf).2, fixpoint_no_nl (hcells r hr f hf).1⟩

/-- Witness for C9 at one concrete normalized row, a non-default
placeholder, and cells containing a comma, a quote and a degree sign. -/
theorem claim_C9_round_trip_witness :
    ((_clean_ws "007_MRT" = "007_MRT" ∧ "007_MRT" ≠ "") ∧
      (_clean_ws "Dev \"A\", east" = "Dev \"A\", east" ∧ "Dev \"A\", east" ≠ "") ∧
      (∀ r ∈ [row9],
        ∀ s ∈ [r.obj_type, r.obj_num, r.name, r.units, r.dev_number],
          _clean_ws s = s ∧ s ≠ "")) ∧
      parseFile (encFile (write_csv [row9] "007_MRT" "Dev \"A\", east" true "-")) =
        headerRow :: [row9].map (fun r => sourceCells r "007_MRT" "Dev \"A\", east") :=
  ⟨⟨⟨by decide, by decide⟩, ⟨by decide, by decide⟩, by decide⟩,
    claim_C9_round_trip _ "007_MRT" "Dev \"A\", east" "-"
      ⟨by decide, by decide⟩ ⟨by decide, by decide⟩ (by decide)⟩

/-! ## C2: units extraction -/

theorem dropWhile_append_all {p : Char → Bool} {a : List Char} (b : List Char)
    (h : ∀ c ∈ a, p c = true) : (a ++ b).dropWhile p = b.dropWhile p := by
  induction a with
  | nil => rfl
  | cons x xs ih =>
    simp [List.dropWhile_cons, h x (List.mem_cons_self x xs),
      ih (fun c hc => h c (List.mem_cons_of_mem x hc))]

theorem rstripL_eq_nil_iff {l : List Char} :
    rstripL l = [] ↔ ∀ c ∈ l, pythonIsSpace c = true := by
  unfold rstripL
  rw [List.reverse_eq_nil_iff, List.dropWhile_eq_nil_iff]
  constructor
  · intro h c hc
    exact h c (List.mem_reverse.mpr hc)
  · intro h c hc
    exact h c (List.mem_reverse.mp hc)

theorem rstripL_cons_of_ne {c : Char} {rest : List Char} (h : rstripL rest ≠ []) :
    rstripL (c :: rest) = c :: rstripL rest := by
  have hx : ∃ x ∈ rest, pythonIsSpace x = false := by
    by_contra hcon
    push_neg at hcon
    apply h
    rw [rstripL_eq_nil_iff]
    intro x hxm
    cases hw : pythonIsSpace x
    · exact absurd hw (hcon x hxm)
    · rfl
  rcases hx with ⟨x, hxm, hxw⟩
  unfold rstripL
  rw [List.reverse_cons, dropWhile_append_of_neg [c] (List.mem_reverse.mpr hxm) hxw,
    List.reverse_append]
  rfl

theorem rstripL_cons_allws {c : Char} {rest : List Char} (hc : pythonIsSpace c = false)
    (h : ∀ x ∈ rest, pythonIsSpace x = true) : rstripL (c :: rest) = [c] := by
  unfold rstripL
  rw [List.reverse_cons, dropWhile_append_all [c] (fun x hxm => h x (List.mem_reverse.mp hxm)),
    dropWhile_cons_neg [] hc]
  rfl

theorem pyStripL_cons_ws {c : Char} {rest : List Char} (h : pythonIsSpace c = true) :
    pyStripL (c :: rest) = pyStripL rest := by
  simp [pyStripL, List.dropWhile_cons, h]

theorem pyStripL_eq_rstripL {c : Char} {rest : List Char} (h : pythonIsSpace c = false) :
    pyStripL (c :: rest) = rstripL (c :: rest) := by
  unfold pyStripL rstripL
  rw [dropWhile_cons_neg rest h]

theorem wsStarDollar_iff {t : List Char} (h : '\n' ∉ t) :
    wsStarDollar t = true ↔ ∀ c ∈ t, pythonIsSpace c = true := by
  induction t with
  | nil => simp [wsStarDollar]
  | cons c rest ih =>
    have hc : c ≠ '\n' := fun hcc => h (hcc ▸ List.mem_cons_self c rest)
    have hda : dollarAt (c :: rest) = false := by
      cases rest with
      | nil => exact decide_eq_false hc
      | cons d r2 => rfl
    rw [show wsStarDollar (c :: rest) =
        (dollarAt (c :: rest) || (pythonIsSpace c && wsStarDollar rest)) from rfl]
    rw [hda, Bool.false_or, Bool.and_eq_true]
    rw [ih (fun hm => h (List.mem_cons_of_mem c hm))]
    constructor
    · rintro ⟨h1, h2⟩ x hx
      rcases List.mem_cons.mp hx with rfl | hx2
      · exact h1
      · exact h2 x hx2
    · intro hall
      exact ⟨hall c (List.mem_cons_self c rest),
        fun x hx => hall x (List.mem_cons_of_mem c hx)⟩

theorem lazyCapture_eq : ∀ {t : List Char}, '\n' ∉ t → rstripL t ≠ [] →
    lazyCapture t = some (rstripL t)
  | [], _, hne => absurd rfl hne
  | c :: rest, h, hne => by
    have hc : c ≠ '\n' := fun hcc => h (hcc ▸ List.mem_cons_self c rest)
    have hrest : '\n' ∉ rest := fun hm => h (List.mem_cons_of_mem c hm)
    rw [show lazyCapture (c :: rest) =
        (if c = '\n' then none
         else if wsStarDollar rest then some [c]
         else match lazyCapture rest with
           | some cap => some (c :: cap)
           | none => none) from rfl]
    rw [if_neg hc]
    by_cases hws : wsStarDollar rest = true
    · rw [if_pos hws]
      have hall : ∀ x ∈ rest, pythonIsSpace x = true :=
        (wsStarDollar_iff hrest).mp hws
      have hcws : pythonIsSpace c = false := by
        cases hcw : pythonIsSpace c
        · rfl
        · exact absurd (rstripL_eq_nil_iff.mpr (fun x hx => by
            rcases List.mem_cons.mp hx with rfl | hx2
            · exact hcw
            · exact hall x hx2)) hne
      rw [rstripL_cons_allws hcws hall]
    · rw [if_neg hws]
      have hrne : rstripL rest ≠ [] := fun hnil =>
        hws ((wsStarDollar_iff hrest).mpr (rstripL_eq_nil_iff.mp hnil))
      rw [lazyCapture_eq hrest hrne, rstripL_cons_of_ne hrne]

theorem capAfterWs_eq : ∀ {u : List Char}, '\n' ∉ u → pyStripL u ≠ [] →
    capAfterWs u = some (pyStripL u)
  | [], _, hne => absurd rfl hne
  | c :: rest, h, hne => by
    have hrest : '\n' ∉ rest := fun hm => h (List.mem_cons_of_mem c hm)
    rw [show capAfterWs (c :: rest) =
        (if pythonIsSpace c then
          match capAfterWs rest with
          | some cap => some cap
          | none => lazyCapture (c :: rest)
         else lazyCapture (c :: rest)) from rfl]
    cases hws : pythonIsSpace c with
    | true =>
      rw [if_pos rfl]
      rw [pyStripL_cons_ws hws] at hne ⊢
      rw [capAfterWs_eq hrest hne]
    | false =>
      rw [if_neg Bool.false_ne_true]
      rw [pyStripL_eq_rstripL hws] at hne ⊢
      exact lazyCapture_eq h hne

theorem wsPlusCap_space {u : List Char} (h : '\n' ∉ u) (hne : pyStripL u ≠ []) :
    wsPlusCap (' ' :: u) = some (pyStripL u) := by
  rw [show wsPlusCap (' ' :: u) =
      (if pythonIsSpace ' ' then capAfterWs u else none) from rfl]
  rw [if_pos (by decide)]
  exact capAfterWs_eq h hne

theorem not_sign_head {d : Char} (h : d.isDigit = true) : ¬((d = '-' || d = '+') = true) := by
  simp only [Bool.or_eq_true, decide_eq_true_eq]
  rintro (rfl | rfl)
  · exact absurd h (by decide)
  · exact absurd h (by decide)

theorem not_sign_tail {d : Char} (h : d.isDigit = true) : ¬((d = '+' || d = '-') = true) := by
  simp only [Bool.or_eq_true, decide_eq_true_eq]
  rintro (rfl | rfl)
  · exact absurd h (by decide)
  · exact absurd h (by decide)

theorem fracConsume_skip {c : Char} (r : List Char) (h : ¬(c = '.')) :
    fracConsume (c :: r) = c :: r := by
  show (if c = '.' then
      (let ds := r.takeWhile Char.isDigit
       if ds.isEmpty then c :: r else r.drop ds.length)
    else c :: r) = c :: r
  rw [if_neg h]

theorem fracConsume_frac {fds rest : List Char} (hne : fds ≠ [])
    (hdig : ∀ c ∈ fds, c.isDigit = true)
    (hrt : rest.takeWhile Char.isDigit = []) :
    fracConsume ('.' :: (fds ++ rest)) = rest := by
  have htw : (fds ++ rest).takeWhile Char.isDigit = fds := by
    rw [takeWhile_append_all rest hdig, hrt, List.append_nil]
  show (if '.' = '.' then
      (let ds := (fds ++ rest).takeWhile Char.isDigit
       if ds.isEmpty then '.' :: (fds ++ rest) else (fds ++ rest).drop ds.length)
    else '.' :: (fds ++ rest)) = rest
  rw [if_pos rfl]
  dsimp only
  rw [htw]
  rw [if_neg (fun hh => hne (by simpa using hh))]
  have : fds.length = fds.length := rfl
  rw [show (fds ++ rest).drop fds.length = rest from List.drop_left _ _]

theorem expConsume_skip {c : Char} (r : List Char) (h : (c = 'e' || c = 'E') = false) :
    expConsume (c :: r) = c :: r := by
  rw [expConsume.eq_def]
  try dsimp only
  rw [if_neg (by rw [h]; exact Bool.false_ne_true)]

theorem expConsume_exp {e : Char} {es eds rest : List Char}
    (he : (e = 'e' || e = 'E') = true)
    (hes : es = [] ∨ es = ['-'] ∨ es = ['+'])
    (hne : eds ≠ []) (hdig : ∀ c ∈ eds, c.isDigit = true)
    (hrt : rest.takeWhile Char.isDigit = []) :
    expConsume (e :: (es ++ eds ++ rest)) = rest := by
  obtain ⟨d, eds2, rfl⟩ : ∃ d eds2, eds = d :: eds2 := by
    cases eds with
    | nil => exact absurd rfl hne
    | cons d eds2 => exact ⟨d, eds2, rfl⟩
  have hd : d.isDigit = true := hdig d (List.mem_cons_self d eds2)
  have htw : (d :: (eds2 ++ rest)).takeWhile Char.isDigit = d :: eds2 := by
    have h0 : ((d :: eds2) ++ rest).takeWhile Char.isDigit = d :: eds2 := by
      rw [takeWhile_append_all rest hdig, hrt, List.append_nil]
    simpa only [List.cons_append] using h0
  have hdrop : (d :: (eds2 ++ rest)).drop (d :: eds2).length = rest := by
    simpa only [List.cons_append] using List.drop_left (d :: eds2) rest
  have hemp : ¬((d :: eds2).isEmpty = true) := fun hh =>
    List.cons_ne_nil d eds2 (by simp at hh)
  rw [expConsume.eq_def]
  rcases hes with rfl | rfl | rfl
  · simp only [List.nil_append, List.cons_append]
    rw [if_pos he]
    rw [if_neg (not_sign_tail hd)]
    rw [htw]
    rw [if_neg hemp]
    exact hdrop
  · dsimp only [List.nil_append, List.cons_append]
    rw [if_pos he]
    rw [if_pos (show (('-' : Char) = '+' || ('-' : Char) = '-') = true from by decide)]
    rw [htw]
    rw [if_neg hemp]
    exact hdrop
  · dsimp only [List.nil_append, List.cons_append]
    rw [if_pos he]
    rw [if_pos (show (('+' : Char) = '+' || ('+' : Char) = '-') = true from by decide)]
    rw [htw]
    rw [if_neg hemp]
    exact hdrop

theorem unitsMatch_form {sg ds rest : List Char}
    (hsg : sg = [] ∨ sg = ['-'] ∨ sg = ['+'])
    (hne : ds ≠ []) (hdig : ∀ c ∈ ds, c.isDigit = true)
    (hrt : rest.takeWhile Char.isDigit = []) :
    unitsMatch (sg ++ ds ++ rest) = wsPlusCap (expConsume (fracConsume rest)) := by
  obtain ⟨d, ds2, rfl⟩ : ∃ d ds2, ds = d :: ds2 := by
    cases ds with
    | nil => exact absurd rfl hne
    | cons d ds2 => exact ⟨d, ds2, rfl⟩
  have hd : d.isDigit = true := hdig d (List.mem_cons_self d ds2)
  have htw : (d :: (ds2 ++ rest)).takeWhile Char.isDigit = d :: ds2 := by
    have h0 : ((d :: ds2) ++ rest).takeWhile Char.isDigit = d :: ds2 := by
      rw [takeWhile_append_all rest hdig, hrt, List.append_nil]
    simpa only [List.cons_append] using h0
  have hdrop : (d :: (ds2 ++ rest)).drop (d :: ds2).length = rest := by
    simpa only [List.cons_append] using List.drop_left (d :: ds2) rest
  have hemp : ¬((d :: ds2).isEmpty = true) := fun hh =>
    List.cons_ne_nil d ds2 (by simp at hh)
  rw [unitsMatch.eq_def]
  rcases hsg with rfl | rfl | rfl
  · dsimp only [List.nil_append, List.cons_append]
    rw [dropWhile_cons_neg _ (ws_false_of_isDigit hd)]
    dsimp only
    rw [if_neg (not_sign_head hd)]
    rw [htw]
    rw [if_neg hemp]
    rw [hdrop]
  · dsimp only [List.nil_append, List.cons_append]
    rw [dropWhile_cons_neg _ (show pythonIsSpace '-' = false from by decide)]
    dsimp only
    rw [if_pos (show (('-' : Char) = '-' || ('-' : Char) = '+') = true from by decide)]
    rw [htw]
    rw [if_neg hemp]
    rw [hdrop]
  · dsimp only [List.nil_append, List.cons_append]
    rw [dropWhile_cons_neg _ (show pythonIsSpace '+' = false from by decide)]
    dsimp only
    rw [if_pos (show (('+' : Char) = '-' || ('+' : Char) = '+') = true from by decide)]
    rw [htw]
    rw [if_neg hemp]
    rw [hdrop]

/-- C2 (amended): units extraction on a value string whose *preprocessed*
form — after stripping whitespace, stripping surrounding double quotes,
removing every apostrophe and normalizing mojibake, exactly as the code
does before the regex — is `<number><space><unit text>` (number: optional
sign, digits, optional decimal fraction, optional exponent) returns the
unit text trimmed and mojibake-normalized, provided the unit text is
nonempty after trimming and contains no newline; and when the
preprocessed form is the bare numeric token, it returns the empty
string.  (The original claim fails in two ways: apostrophes are removed
everywhere, not only at the ends, and a numeric token followed only by
two or more whitespace characters yields a single-space capture instead
of the empty string — see the counterexample.) -/
theorem claim_C2_units_extraction (v : String) (sg ds fr ex u : List Char)
    (hsg : sg = [] ∨ sg = ['-'] ∨ sg = ['+'])
    (hds : ds ≠ [] ∧ ∀ c ∈ ds, c.isDigit = true)
    (hfr : fr = [] ∨ ∃ fds, fr = '.' :: fds ∧ fds ≠ [] ∧ ∀ c ∈ fds, c.isDigit = true)
    (hex : ex = [] ∨ ∃ e es eds, (e = 'e' ∨ e = 'E') ∧ (es = [] ∨ es = ['-'] ∨ es = ['+']) ∧
      eds ≠ [] ∧ (∀ c ∈ eds, c.isDigit = true) ∧ ex = e :: (es ++ eds)) :
    (normalizeMojibakeL (removeApos (stripQuotesL (pyStripL v.data))) =
        sg ++ ds ++ fr ++ ex ++ ' ' :: u →
      '\n' ∉ u → pyStripL u ≠ [] →
      extract_units v = ⟨normalizeMojibakeL (pyStripL u)⟩) ∧
    (normalizeMojibakeL (removeApos (stripQuotesL (pyStripL v.data))) =
        sg ++ ds ++ fr ++ ex →
      extract_units v = "") := by
  have key : ∀ tail : List Char, tail.takeWhile Char.isDigit = [] →
      (tail = [] ∨ ∃ c t2, tail = c :: t2 ∧ ¬(c = '.') ∧ ((c = 'e' || c = 'E') = false)) →
      unitsMatch ((sg ++ ds) ++ ((fr ++ ex) ++ tail)) = wsPlusCap tail := by
    intro tail htw hhead
    have hext : (ex ++ tail).takeWhile Char.isDigit = [] := by
      rcases hex with rfl | ⟨e, es, eds, hee, hes, hene, hedig, rfl⟩
      · simpa using htw
      · simp only [List.cons_append]
        have hde : Char.isDigit e = false := by rcases hee with rfl | rfl <;> decide
        exact takeWhile_cons_neg _ hde
    have hrt : (fr ++ (ex ++ tail)).takeWhile Char.isDigit = [] := by
      rcases hfr with rfl | ⟨fds, rfl, hfne, hfdig⟩
      · simpa using hext
      · simp only [List.cons_append]
        exact takeWhile_cons_neg _ (by decide)
    have hfc : fracConsume (fr ++ (ex ++ tail)) = ex ++ tail := by
      rcases hfr with rfl | ⟨fds, rfl, hfne, hfdig⟩
      · rcases hex with rfl | ⟨e, es, eds, hee, hes, hene, hedig, rfl⟩
        · rcases hhead with rfl | ⟨c, t2, rfl, hdot, hee2⟩
          · rfl
          · simp only [List.nil_append]
            exact fracConsume_skip _ hdot
        · simp only [List.nil_append, List.cons_append]
          have hdote : ¬(e = '.') := by rcases hee with rfl | rfl <;> decide
          exact fracConsume_skip _ hdote
      · simp only [List.cons_append]
        exact fracConsume_frac hfne hfdig hext
    have hec : expConsume (ex ++ tail) = tail := by
      rcases hex with rfl | ⟨e, es, eds, hee, hes, hene, hedig, rfl⟩
      · rcases hhead with rfl | ⟨c, t2, rfl, hdot, hee2⟩
        · rfl
        · simp only [List.nil_append]
          exact expConsume_skip _ hee2
      · simp only [List.cons_append]
        have he2 : (e = 'e' || e = 'E') = true := by rcases hee with rfl | rfl <;> decide
        exact expConsume_exp he2 hes hene hedig htw
    rw [List.append_assoc fr ex tail, unitsMatch_form hsg hds.1 hds.2 hrt, hfc, hec]
  constructor
  · intro hpre hnl hne2
    unfold extract_units
    dsimp only
    rw [hpre, List.append_assoc (sg ++ ds) fr ex,
      List.append_assoc (sg ++ ds) (fr ++ ex) (' ' :: u)]
    rw [key (' ' :: u) (takeWhile_cons_neg _ (by decide))
      (Or.inr ⟨' ', u, rfl, by decide, by decide⟩)]
    rw [wsPlusCap_space hnl hne2]
  · intro hpre
    have h2 := key [] rfl (Or.inl rfl)
    simp only [List.append_nil] at h2
    unfold extract_units
    dsimp only
    rw [hpre, List.append_assoc (sg ++ ds) fr ex, h2]
    rfl

/-- Witness for C2 at the value string `23.4 Â°C` (with the mojibake
two-byte degree sign), whose preprocessed form is `23.4 °C`: the
extracted units are `°C`. -/
theorem claim_C2_units_extraction_witness :
    ('\n' ∉ ('°' :: ['C']) ∧ pyStripL ('°' :: ['C']) ≠ []) ∧
      extract_units "23.4 Â°C" = ⟨normalizeMojibakeL (pyStripL ('°' :: ['C']))⟩ :=
  ⟨⟨by decide, by decide⟩,
    (claim_C2_units_extraction "23.4 Â°C" [] ['2', '3'] ['.', '4'] []
        ('°' :: ['C'])
        (Or.inl rfl) ⟨by decide, by decide⟩
        (Or.inr ⟨['4'], rfl, by decide, by decide⟩) (Or.inl rfl)).1
      (by decide) (by decide) (by decide)⟩

/-- C2 counterexample: the quoted value `"1  "` (a digit followed by two
spaces inside double quotes) has no unit text in the claim's sense —
neither as written nor after the code's preprocessing — yet units
extraction returns a single space, not the empty string; and for
`23 o'clock` the claimed unit text `o'clock` comes back with its
interior apostrophe removed, because the code deletes every apostrophe,
not only surrounding ones. -/
theorem claim_C2_counterexample :
    hasUnitForm "\"1  \"" = false ∧ hasUnitForm "1  " = false ∧
      extract_units "\"1  \"" = " " ∧ (" " : String) ≠ "" ∧
      hasUnitForm "23 o\x27clock" = true ∧
      extract_units "23 o\x27clock" = "oclock" ∧
      extract_units "23 o\x27clock" ≠ "o\x27clock" := by
  decide

end CsvConverter
